import Mathlib

/-!
Verification of the graph / depth-first-search program in `src/main.c`
(repository Grafos_II_DFS).

The C program is shallowly embedded: C structs become Lean structures,
pointer-to-vertex arguments become array indices, in-place mutation becomes
explicit state passing, and the recursive traversal takes a fuel argument
(structural recursion) that the caller instantiates with `len + 1`, which is
shown sufficient because every nested call strictly decreases the number of
WHITE vertices.

`List.h` and `Queue.h` are not part of the repository sources, so the
adjacency-list and queue operations are modelled from the specification
(spec §4.1 and §4.2); every such definition is marked
`Modelled from the spec:` in its doc comment.
-/

set_option linter.unusedVariables false

namespace GrafosDFS

/-- DFS colors (src/main.c `eGraphColors`; `WHITE` is 0, the `calloc` value). -/
inductive eGraphColors where
  | WHITE
  | GRAY
  | BLACK
deriving DecidableEq

open eGraphColors

/-- Graph type (src/main.c `eGraphType`). -/
inductive eGraphType where
  | UNDIRECTED
  | DIRECTED
deriving DecidableEq

/-- One adjacency entry. Modelled from the spec: `List.h` is not in the
repository; spec §3 gives `AdjacencyEntry = {neighborIndex : integer, weight : float}`.
The `index` is the C `int` vertex index stored by `List_Push_back`; the weight
(spelled `weigth` as in the C call sites) is carried but never read by any
algorithm. -/
structure AdjEntry where
  index : Int
  weigth : Float

/-- A vertex (src/main.c `Vertex`). `neighbors` is `none` exactly when the C
pointer is NULL. -/
structure Vertex where
  data : Int
  neighbors : Option (List AdjEntry)
  distance : Int
  predecessor : Int
  color : eGraphColors
  discovery_time : Int
  finish_time : Int

/-- The all-zero vertex produced by `calloc` in `Graph_New`:
data 0, NULL neighbor list, all counters 0, color `WHITE` (= 0). -/
def Vertex.zero : Vertex :=
  { data := 0, neighbors := none, distance := 0, predecessor := 0,
    color := WHITE, discovery_time := 0, finish_time := 0 }

instance : Inhabited Vertex := ⟨Vertex.zero⟩

/-- src/main.c `Vertex_HasNeighbors`: true iff the neighbor-list pointer is non-NULL. -/
def Vertex_HasNeighbors (v : Vertex) : Bool := v.neighbors.isSome

/-- src/main.c `Vertex_GetData`. -/
def Vertex_GetData (v : Vertex) : Int := v.data

/-- Modelled from the spec: `List_Find` of the missing `List.h`
(§4.1 `contains(list, index)`): linear scan for an entry whose
`neighborIndex` equals `index`. -/
def List_Find (l : List AdjEntry) (index : Int) : Bool :=
  l.any (fun e => e.index == index)

/-- src/main.c `find_neighbor`: checks whether `index` is already in the
neighbor list (false when the list pointer is NULL). -/
def find_neighbor (v : Vertex) (index : Int) : Bool :=
  match v.neighbors with
  | some l => List_Find l index
  | none => false

/-- src/main.c `insert` (static helper): create the neighbor list if missing
(`List_New`), then append `(index, weigth)` at the back (`List_Push_back`,
modelled from spec §4.1 as append) unless `index` is already present. -/
def insert (vertex : Vertex) (index : Int) (weigth : Float) : Vertex :=
  let vertex :=
    match vertex.neighbors with
    | none => { vertex with neighbors := some [] }
    | some _ => vertex
  if !(find_neighbor vertex index) then
    { vertex with
      neighbors := some ((vertex.neighbors.getD []) ++ [⟨index, weigth⟩]) }
  else vertex

/-- src/main.c `Graph`: `vertices` is the calloc'd array of `size` slots,
`len` the number of populated slots (prefix of the array). -/
structure Graph where
  vertices : List Vertex
  size : Nat
  len : Nat
  type : eGraphType

/-- Read the vertex array at an index (C `g->vertices[i]`; reads are always
guarded by assertions `i < len` or loop bounds in the source, so the `getD`
default is never reached on the asserted paths). -/
def Graph.vertexAt (g : Graph) (i : Nat) : Vertex := g.vertices.getD i default

/-- src/main.c `Graph_New`: a graph of `size` zeroed slots (precondition `size > 0`;
allocation success is assumed in the model). -/
def Graph_New (size : Nat) (type : eGraphType) : Graph :=
  { vertices := List.replicate size Vertex.zero, size := size, len := 0, type := type }

/-- src/main.c `Graph_AddVertex`: write `data` and a NULL neighbor list into
slot `len`, then increment `len` (precondition `len < size`). -/
def Graph_AddVertex (g : Graph) (data : Int) : Graph :=
  { g with
    vertices := g.vertices.set g.len
      { (g.vertices.getD g.len default) with data := data, neighbors := none },
    len := g.len + 1 }

/-- src/main.c `Graph_GetLen`. -/
def Graph_GetLen (g : Graph) : Nat := g.len

/-- First index of `l` whose `data` field equals `key` (the linear-scan core
shared by `find` and `Graph_GetVertexByKey`). -/
def scanKey (l : List Vertex) (key : Int) : Option Nat :=
  match l with
  | [] => none
  | v :: rest => if v.data = key then some 0 else (scanKey rest key).map (· + 1)

/-- src/main.c `find` (static helper): scan slots `[0, size)` of the vertex
array — including unpopulated slots — for the first `data == key`; `-1` if
not found. -/
def find (vertices : List Vertex) (size : Nat) (key : Int) : Int :=
  match scanKey (vertices.take size) key with
  | some i => (i : Int)
  | none => -1

/-- src/main.c `Graph_AddEdge`: resolve both keys over the full capacity with
`find`; return `false` (graph untouched) if either is `-1`; otherwise insert
`finish_idx` into the source list, and for UNDIRECTED graphs also the
symmetric entry (precondition `len > 0`). -/
def Graph_AddEdge (g : Graph) (start finish : Int) : Bool × Graph :=
  let start_idx := find g.vertices g.size start
  let finish_idx := find g.vertices g.size finish
  if start_idx = -1 ∨ finish_idx = -1 then (false, g)
  else
    let g1 := { g with
      vertices := g.vertices.set start_idx.toNat
        (insert (g.vertices.getD start_idx.toNat default) finish_idx 0.0) }
    let g2 :=
      if g.type = eGraphType.UNDIRECTED then
        { g1 with
          vertices := g1.vertices.set finish_idx.toNat
            (insert (g1.vertices.getD finish_idx.toNat default) start_idx 0.0) }
      else g1
    (true, g2)

/-- src/main.c `Graph_GetVertexByKey`: linear scan over the populated prefix
`[0, Graph_GetLen g)` only; the returned pointer is modelled as the vertex
index, NULL as `none`. -/
def Graph_GetVertexByKey (g : Graph) (key : Int) : Option Nat :=
  scanKey (g.vertices.take g.len) key

/-- Modelled from the spec: the bounded FIFO queue of the missing `Queue.h`
(§4.2): fixed capacity, current items in FIFO order (head = front). -/
structure Queue where
  cap : Nat
  items : List Int

/-- Modelled from the spec: `Queue_New` (§4.2 `create(capacity)`), an empty
queue of the given capacity. -/
def Queue_New (cap : Nat) : Queue := { cap := cap, items := [] }

/-- Modelled from the spec: `Queue_Enqueue` (§4.2) appends at the tail;
behavior when full is an unchecked precondition (`items.length < cap`)
violation, so the model simply appends. -/
def Queue_Enqueue (q : Queue) (value : Int) : Queue :=
  { q with items := q.items ++ [value] }

/-- Modelled from the spec: `Queue_Len` (§4.2 `length(queue)`), the current
count of stored elements. -/
def Queue_Len (q : Queue) : Nat := q.items.length

/-- Modelled from the spec: `Queue_Dequeue` (§4.2) removes and returns the
head; dequeue on an empty queue is a fatal precondition violation in C,
modelled as returning 0 with the queue unchanged. -/
def Queue_Dequeue (q : Queue) : Int × Queue :=
  match q.items with
  | [] => (0, q)
  | x :: rest => (x, { q with items := rest })

/-- src/main.c `MAX_VERTICES`. -/
def MAX_VERTICES : Nat := 9

/-- The mutable state threaded through `dfs_topol_traverse`: the graph (whose
vertex records are updated in place in C), the shared `*pTiempo` counter and
the recording queue `listado`. -/
structure DfsState where
  g : Graph
  tiempo : Int
  listado : Queue

/-- Read the vertex the C code reaches via `Graph_GetVertexByIndex`. -/
def DfsState.vertexAt (st : DfsState) (i : Nat) : Vertex :=
  st.g.vertices.getD i default

/-- In-place update of one vertex record (a C write through a `Vertex*`). -/
def DfsState.modifyVertex (st : DfsState) (i : Nat) (f : Vertex → Vertex) : DfsState :=
  { st with g := { st.g with
      vertices := st.g.vertices.set i (f (st.g.vertices.getD i default)) } }

/-- The first three statements of src/main.c `dfs_topol_traverse`:
`*pTiempo += 1; Vertex_SetDiscovery_time(v, *pTiempo); Vertex_SetColor(v, GRAY)`. -/
def visitEnter (st : DfsState) (v : Nat) : DfsState :=
  let st := { st with tiempo := st.tiempo + 1 }
  let st := st.modifyVertex v (fun vx => { vx with discovery_time := st.tiempo })
  st.modifyVertex v (fun vx => { vx with color := GRAY })

/-- The loop body's then-branch before the recursive call
(`Vertex_SetColor(w, GRAY); Vertex_SetPredecessor(w, Vertex_GetData(v))`).
The predecessor stored is `v`'s key, read through the `v` pointer. -/
def paintDiscovered (s : DfsState) (v w : Nat) : DfsState :=
  let s := s.modifyVertex w (fun vx => { vx with color := GRAY })
  s.modifyVertex w (fun vx => { vx with predecessor := Vertex_GetData (s.vertexAt v) })

/-- The finishing statements of src/main.c `dfs_topol_traverse`:
`Vertex_SetColor(v, BLACK); *pTiempo += 1; Vertex_SetDiscovery_time(v, *pTiempo);
Queue_Enqueue(&listado, v->data)` — note the second timestamp goes to the
discovery-time field, and the finish-time field is never written. -/
def visitFinish (st : DfsState) (v : Nat) : DfsState :=
  let st := st.modifyVertex v (fun vx => { vx with color := BLACK })
  let st := { st with tiempo := st.tiempo + 1 }
  let st := st.modifyVertex v (fun vx => { vx with discovery_time := st.tiempo })
  { st with listado := Queue_Enqueue st.listado ((st.vertexAt v).data) }

/-- src/main.c `dfs_topol_traverse`, with the visited vertex passed as its
index and an explicit fuel bounding the recursion depth (the caller passes
`len + 1`, sufficient since each nested call is on a vertex that was WHITE
and is painted GRAY first).  The cursor loop
`for(Vertex_Start(v); !Vertex_End(v); Vertex_Next(v))` is modelled as a fold
over the neighbor list, which the traversal never mutates. -/
def dfs_topol_traverse : Nat → DfsState → Nat → DfsState
  | 0, st, _ => st
  | fuel + 1, st, v =>
    let st1 := visitEnter st v
    let st2 :=
      if Vertex_HasNeighbors (st1.vertexAt v) then
        ((st1.vertexAt v).neighbors.getD []).foldl
          (fun s e =>
            if (s.vertexAt e.index.toNat).color = WHITE then
              dfs_topol_traverse fuel (paintDiscovered s v e.index.toNat) e.index.toNat
            else s)
          st1
      else st1
    visitFinish st2 v

/-- The neighbor loop of `dfs_topol_traverse` at a given fuel, named so that
the one-step unfolding of the recursion can be stated as an equation. -/
def visitLoop (fuel : Nat) (st1 : DfsState) (v : Nat) : DfsState :=
  if Vertex_HasNeighbors (st1.vertexAt v) then
    ((st1.vertexAt v).neighbors.getD []).foldl
      (fun s e =>
        if (s.vertexAt e.index.toNat).color = WHITE then
          dfs_topol_traverse fuel (paintDiscovered s v e.index.toNat) e.index.toNat
        else s)
      st1
  else st1

/-- The reset of one vertex performed by the initialization loop of
src/main.c `dfs_topol` (color WHITE, predecessor -1, both times 0). -/
def resetVertex (v : Vertex) : Vertex :=
  { v with color := WHITE, predecessor := -1, discovery_time := 0, finish_time := 0 }

/-- Apply `resetVertex` to the first `n` slots (the `for i < Graph_GetLen(g)`
initialization loop of `dfs_topol`). -/
def resetFirst : Nat → List Vertex → List Vertex
  | 0, vs => vs
  | _ + 1, [] => []
  | n + 1, v :: rest => resetVertex v :: resetFirst n rest

/-- The state right after `dfs_topol`'s initialization loop and
`Queue_New(MAX_VERTICES)`: every populated vertex reset, time 0, empty queue. -/
def resetState (g : Graph) : DfsState :=
  { g := { g with vertices := resetFirst g.len g.vertices },
    tiempo := 0, listado := Queue_New MAX_VERTICES }

/-- The state `dfs_topol` has built right before the recursive call: the
reset state with the start vertex (slot `s`) painted GRAY
(`Vertex_SetColor(Graph_GetVertexByKey(g, start), GRAY)`). -/
def startState (g : Graph) (s : Nat) : DfsState :=
  (resetState g).modifyVertex s (fun vx => { vx with color := GRAY })

/-- src/main.c `dfs_topol` up to (and excluding) the report loop: reset all
populated vertices, create the queue with capacity `MAX_VERTICES`, paint the
start vertex GRAY and run the recursive traversal (the source looks the start
vertex up by key twice; data fields are unchanged by the reset and the paint,
so both lookups give the same slot).  Returns the state right after
`dfs_topol_traverse` returns (queue not yet drained).  A `start` key that
names no populated vertex would dereference NULL in C (fatal); the model
returns the reset state untraversed in that case. -/
def dfs_topol_run (g : Graph) (start : Int) : DfsState :=
  match Graph_GetVertexByKey (resetState g).g start with
  | none => resetState g
  | some s => dfs_topol_traverse (g.len + 1) (startState g s) s

/-- The report loop of src/main.c `dfs_topol`:
`for(i = 0; i < Queue_Len(lista); ++i)` dequeues and prints
`[i] (key) -- Pred: p`.  Note the loop condition re-reads the current
(shrinking) queue length on every iteration.  Each printed line is modelled
as the triple (report index, key, predecessor). -/
def drainGo (g : Graph) (items : List Int) (i : Nat) : List (Nat × Int × Int) :=
  match items with
  | [] => []
  | x :: rest =>
    if i < (x :: rest).length then
      let v :=
        match Graph_GetVertexByKey g x with
        | some j => g.vertexAt j
        | none => default   -- NULL dereference in C (fatal); unreachable on the demo
      (i, v.data, v.predecessor) :: drainGo g rest (i + 1)
    else []

/-- src/main.c `dfs_topol` in full: the traversal followed by the report
loop; returns the pre-drain state and the printed lines. -/
def dfs_topol (g : Graph) (start : Int) : DfsState × List (Nat × Int × Int) :=
  let st := dfs_topol_run g start
  (st, drainGo st.g st.listado.items 0)

/-- The demonstration graph built by src/main.c `main`: 9 vertices with keys
100..900 and the 9 directed edges, added in source order. -/
def demoGraph : Graph :=
  let g := Graph_New MAX_VERTICES eGraphType.DIRECTED
  let g := Graph_AddVertex g 100
  let g := Graph_AddVertex g 200
  let g := Graph_AddVertex g 300
  let g := Graph_AddVertex g 400
  let g := Graph_AddVertex g 500
  let g := Graph_AddVertex g 600
  let g := Graph_AddVertex g 700
  let g := Graph_AddVertex g 800
  let g := Graph_AddVertex g 900
  let g := (Graph_AddEdge g 100 400).2
  let g := (Graph_AddEdge g 200 400).2
  let g := (Graph_AddEdge g 300 400).2
  let g := (Graph_AddEdge g 400 600).2
  let g := (Graph_AddEdge g 400 800).2
  let g := (Graph_AddEdge g 500 600).2
  let g := (Graph_AddEdge g 600 700).2
  let g := (Graph_AddEdge g 700 900).2
  let g := (Graph_AddEdge g 800 900).2
  g

/-- The predecessor field of the vertex found by key, after a traversal
(`none` when the key names no populated vertex). -/
def predOfKey (st : DfsState) (key : Int) : Option Int :=
  (Graph_GetVertexByKey st.g key).map (fun i => (st.vertexAt i).predecessor)

/-- A 10-vertex edgeless graph with keys 1..10: one more vertex than
`MAX_VERTICES`, built through the construction API. -/
def wideGraph : Graph :=
  let g := Graph_New 10 eGraphType.DIRECTED
  let g := Graph_AddVertex g 1
  let g := Graph_AddVertex g 2
  let g := Graph_AddVertex g 3
  let g := Graph_AddVertex g 4
  let g := Graph_AddVertex g 5
  let g := Graph_AddVertex g 6
  let g := Graph_AddVertex g 7
  let g := Graph_AddVertex g 8
  let g := Graph_AddVertex g 9
  let g := Graph_AddVertex g 10
  g

/-- A capacity-2 graph with a single populated vertex (key 100): slot 1 is an
unpopulated calloc'd slot whose `data` is 0. -/
def zeroKeyGraph : Graph := Graph_AddVertex (Graph_New 2 eGraphType.DIRECTED) 100

/-- A one-vertex UNDIRECTED graph with key 5, for the self-loop analysis. -/
def loopGraph : Graph := Graph_AddVertex (Graph_New 1 eGraphType.UNDIRECTED) 5

/-- A capacity-3 graph with one populated vertex (key 7) and two zeroed slots. -/
def sparseGraph : Graph := Graph_AddVertex (Graph_New 3 eGraphType.DIRECTED) 7

/-- Three populated vertices with keys 7, 5, 5 (a duplicated key). -/
def dupKeyGraph : Graph :=
  Graph_AddVertex (Graph_AddVertex (Graph_AddVertex (Graph_New 3 eGraphType.DIRECTED) 7) 5) 5

/-- The color of vertex `x` in a traversal state. -/
def colorAt (st : DfsState) (x : Nat) : eGraphColors := (st.vertexAt x).color

/-- The adjacency list of slot `x` of a vertex array (empty when NULL). -/
def neighborsOf (vs : List Vertex) (x : Nat) : List AdjEntry :=
  ((vs.getD x default).neighbors.getD [])

/-- There is an edge from slot `x` to slot `w` in the adjacency structure. -/
def Adj (vs : List Vertex) (x w : Nat) : Prop :=
  ∃ e ∈ neighborsOf vs x, e.index.toNat = w

/-- Reachability from `s` along adjacency entries (reflexive-transitive). -/
inductive Reach (vs : List Vertex) (s : Nat) : Nat → Prop
  | refl : Reach vs s s
  | tail {u w : Nat} : Reach vs s u → Adj vs u w → Reach vs s w

/-- Number of WHITE vertices among slots `[0, n)`. -/
def whiteCount (n : Nat) (st : DfsState) : Nat :=
  (List.range n).countP (fun i => decide (colorAt st i = WHITE))

/-- Everything the traversal never touches: array length, graph bookkeeping,
queue capacity, and the data / neighbors / distance / finish_time fields of
every vertex. -/
def FrameEq (s t : DfsState) : Prop :=
  t.g.vertices.length = s.g.vertices.length ∧ t.g.len = s.g.len ∧
  t.g.size = s.g.size ∧ t.g.type = s.g.type ∧ t.listado.cap = s.listado.cap ∧
  ∀ x, (t.vertexAt x).data = (s.vertexAt x).data ∧
    (t.vertexAt x).neighbors = (s.vertexAt x).neighbors ∧
    (t.vertexAt x).distance = (s.vertexAt x).distance ∧
    (t.vertexAt x).finish_time = (s.vertexAt x).finish_time

/-- Every BLACK vertex among `[0, n)` has no WHITE successor. -/
def ClosedBlack (n : Nat) (st : DfsState) : Prop :=
  ∀ x, x < n → colorAt st x = BLACK →
    ∀ e ∈ neighborsOf st.g.vertices x, colorAt st e.index.toNat ≠ WHITE

/-- Slots in `[0, n)` that are BLACK in `t` but were not yet BLACK in `s`. -/
def newlyBlack (n : Nat) (s t : DfsState) : List Nat :=
  (List.range n).filter (fun x => decide (colorAt t x = BLACK ∧ colorAt s x ≠ BLACK))

/-- Well-formedness of a graph as maintained by the construction API
(spec §3 invariants): the array has exactly `size` slots, at most `size` of
which are populated, and every adjacency entry of a populated vertex holds a
valid populated index. -/
def WFGraph (g : Graph) : Prop :=
  g.vertices.length = g.size ∧ g.len ≤ g.size ∧
  ∀ i, i < g.len → ∀ e ∈ neighborsOf g.vertices i, 0 ≤ e.index ∧ e.index.toNat < g.len

/-- The part of well-formedness the traversal invariants need, relative to
the populated count `n`: the array is long enough and every adjacency entry
of a populated vertex is a valid populated index. -/
def WFState (n : Nat) (st : DfsState) : Prop :=
  n ≤ st.g.vertices.length ∧
  ∀ i, i < n → ∀ e ∈ neighborsOf st.g.vertices i, 0 ≤ e.index ∧ e.index.toNat < n

/-- Postcondition bundle of one complete `dfs_topol_traverse` call on `v`
(entered GRAY): `out` is the state it returns. -/
structure VisitOut (n : Nat) (st : DfsState) (v : Nat) (out : DfsState) : Prop where
  feq : FrameEq st out
  wc_le : whiteCount n out ≤ whiteCount n st
  frame : ∀ x, x ≠ v → colorAt st x ≠ WHITE → out.vertexAt x = st.vertexAt x
  black_v : colorAt out v = BLACK
  gray_sub : ∀ x, colorAt out x = GRAY → colorAt st x = GRAY ∧ x ≠ v
  nonwhite_mono : ∀ x, colorAt st x ≠ WHITE → colorAt out x ≠ WHITE
  reach_new : ∀ x, colorAt out x = BLACK →
    colorAt st x = BLACK ∨ Reach st.g.vertices v x
  closed : ClosedBlack n st → ClosedBlack n out
  nbrs : ∀ e ∈ neighborsOf st.g.vertices v, colorAt out e.index.toNat ≠ WHITE
  disc_v : (out.vertexAt v).discovery_time = out.tiempo
  queue : ∃ l, out.listado.items = st.listado.items ++ l ++ [(st.vertexAt v).data] ∧
    (l ++ [(st.vertexAt v).data]).Perm
      ((newlyBlack n st out).map (fun x => (st.vertexAt x).data))

/-- Postcondition bundle of the neighbor loop of `dfs_topol_traverse` over
the suffix `ns` of `v`'s adjacency list. -/
structure LoopOut (n : Nat) (st : DfsState) (v : Nat) (ns : List AdjEntry)
    (out : DfsState) : Prop where
  feq : FrameEq st out
  wc_le : whiteCount n out ≤ whiteCount n st
  frame : ∀ x, colorAt st x ≠ WHITE → out.vertexAt x = st.vertexAt x
  gray_sub : ∀ x, colorAt out x = GRAY → colorAt st x = GRAY
  nonwhite_mono : ∀ x, colorAt st x ≠ WHITE → colorAt out x ≠ WHITE
  reach_new : ∀ x, colorAt out x = BLACK →
    colorAt st x = BLACK ∨ ∃ e ∈ ns, Reach st.g.vertices e.index.toNat x
  closed : ClosedBlack n st → ClosedBlack n out
  done : ∀ e ∈ ns, colorAt out e.index.toNat ≠ WHITE
  queue : ∃ l, out.listado.items = st.listado.items ++ l ∧
    l.Perm ((newlyBlack n st out).map (fun x => (st.vertexAt x).data))

/-! ### Generic list helpers -/

theorem getD_set {α : Type} [Inhabited α] :
    ∀ (l : List α) (i j : Nat) (a : α),
      (l.set i a).getD j default =
        if j = i ∧ i < l.length then a else l.getD j default := by
  intro l
  induction l with
  | nil => intro i j a; simp [List.getD]
  | cons x xs ih =>
    intro i j a
    cases i with
    | zero =>
      cases j with
      | zero => simp
      | succ j => simp [List.getD]
    | succ i =>
      cases j with
      | zero => simp [List.getD]
      | succ j =>
        have := ih i j a
        simp only [List.set, List.getD_cons_succ, List.length_cons]
        rw [this]
        by_cases h1 : j = i ∧ i < xs.length
        · rw [if_pos h1, if_pos ⟨by omega, by omega⟩]
        · rw [if_neg h1, if_neg (by omega)]

theorem getD_set_getElem {α : Type} [Inhabited α] (l : List α) (i j : Nat) (a : α) :
    ((l.set i a)[j]?).getD default =
      if j = i ∧ i < l.length then a else (l[j]?).getD default := by
  have h := getD_set l i j a
  rwa [List.getD_eq_getElem?_getD, List.getD_eq_getElem?_getD] at h

theorem foldl_rel (R : DfsState → DfsState → Prop)
    (hrefl : ∀ a, R a a)
    (htrans : ∀ a b c, R a b → R b c → R a c)
    {β : Type} (body : DfsState → β → DfsState) (l : List β)
    (hstep : ∀ s e, e ∈ l → R s (body s e)) :
    ∀ st, R st (l.foldl body st) := by
  induction l with
  | nil => intro st; exact hrefl st
  | cons e rest ih =>
    intro st
    exact htrans _ _ _ (hstep st e (List.mem_cons_self e rest))
      (ih (fun s e' he' => hstep s e' (List.mem_cons_of_mem e he')) (body st e))

theorem ite_one_zero_false : (if (false = true) then (1 : Nat) else 0) = 0 := rfl

theorem ite_one_zero_true : (if (true = true) then (1 : Nat) else 0) = 1 := rfl

theorem countP_le_countP (l : List Nat) (p q : Nat → Bool)
    (h : ∀ x ∈ l, p x = true → q x = true) : l.countP p ≤ l.countP q := by
  induction l with
  | nil => simp
  | cons a l ih =>
    have ha := h a (List.mem_cons_self a l)
    have ihl := ih (fun x hx => h x (List.mem_cons_of_mem a hx))
    simp only [List.countP_cons]
    cases hp : p a
    · rw [ite_one_zero_false]
      cases hq : q a
      · rw [ite_one_zero_false]; omega
      · rw [ite_one_zero_true]; omega
    · rw [ha hp, ite_one_zero_true]; omega

theorem countP_lt_countP (l : List Nat) (p q : Nat → Bool)
    (h : ∀ x ∈ l, p x = true → q x = true)
    (a : Nat) (ha : a ∈ l) (hpa : p a = false) (hqa : q a = true) :
    l.countP p < l.countP q := by
  induction l with
  | nil => cases ha
  | cons b l ih =>
    have hmono := countP_le_countP l p q (fun x hx => h x (List.mem_cons_of_mem b hx))
    simp only [List.countP_cons]
    rcases List.mem_cons.mp ha with hab | hal
    · subst hab
      rw [hpa, hqa, ite_one_zero_false, ite_one_zero_true]
      omega
    · have hlt := ih (fun x hx => h x (List.mem_cons_of_mem b hx)) hal
      have hb := h b (List.mem_cons_self b l)
      cases hpb : p b
      · rw [ite_one_zero_false]
        cases hqb : q b
        · rw [ite_one_zero_false]; omega
        · rw [ite_one_zero_true]; omega
      · rw [ite_one_zero_true, hb hpb, ite_one_zero_true]
        omega

theorem filter_perm_append (l : List Nat) (p p1 p2 : Nat → Bool)
    (h : ∀ x ∈ l, p x = (p1 x || p2 x))
    (hd : ∀ x ∈ l, ¬(p1 x = true ∧ p2 x = true)) :
    (l.filter p).Perm (l.filter p1 ++ l.filter p2) := by
  induction l with
  | nil => simp
  | cons a l ih =>
    have hpa := h a (List.mem_cons_self a l)
    have hda := hd a (List.mem_cons_self a l)
    have ihl := ih (fun x hx => h x (List.mem_cons_of_mem a hx))
      (fun x hx => hd x (List.mem_cons_of_mem a hx))
    cases h1 : p1 a
    · cases h2 : p2 a
      · have : p a = false := by rw [hpa, h1, h2]; rfl
        simp only [List.filter_cons, this, h1, h2]
        exact ihl
      · have : p a = true := by rw [hpa, h1, h2]; rfl
        simp only [List.filter_cons, this, h1, h2]
        exact (ihl.cons a).trans List.perm_middle.symm
    · have h2 : p2 a = false := by
        cases h2 : p2 a
        · rfl
        · exact absurd ⟨h1, h2⟩ hda
      have : p a = true := by rw [hpa, h1, h2]; rfl
      simp only [List.filter_cons, this, h1, h2]
      exact ihl.cons a

theorem range_filter_eq_single (n v : Nat) (hv : v < n) :
    (List.range n).filter (fun x => decide (x = v)) = [v] := by
  induction n with
  | zero => omega
  | succ n ih =>
    rw [List.range_succ, List.filter_append]
    by_cases h : v < n
    · rw [ih h]
      have : (List.filter (fun x => decide (x = v)) [n]) = [] := by
        simp; omega
      rw [this]
      simp
    · have hvn : v = n := by omega
      subst hvn
      have : (List.range v).filter (fun x => decide (x = v)) = [] := by
        rw [List.filter_eq_nil_iff]
        intro a ha
        simp only [List.mem_range] at ha
        simp; omega
      rw [this]
      simp

/-! ### State-update lemmas -/

theorem vertexAt_modify (st : DfsState) (i : Nat) (f : Vertex → Vertex) (j : Nat) :
    (st.modifyVertex i f).vertexAt j =
      if j = i ∧ i < st.g.vertices.length then f (st.vertexAt i) else st.vertexAt j :=
  getD_set st.g.vertices i j (f (st.g.vertices.getD i default))

@[simp] theorem modify_tiempo (st : DfsState) (i : Nat) (f : Vertex → Vertex) :
    (st.modifyVertex i f).tiempo = st.tiempo := rfl

@[simp] theorem modify_listado (st : DfsState) (i : Nat) (f : Vertex → Vertex) :
    (st.modifyVertex i f).listado = st.listado := rfl

@[simp] theorem modify_len (st : DfsState) (i : Nat) (f : Vertex → Vertex) :
    (st.modifyVertex i f).g.len = st.g.len := rfl

@[simp] theorem modify_size (st : DfsState) (i : Nat) (f : Vertex → Vertex) :
    (st.modifyVertex i f).g.size = st.g.size := rfl

@[simp] theorem modify_type (st : DfsState) (i : Nat) (f : Vertex → Vertex) :
    (st.modifyVertex i f).g.type = st.g.type := rfl

@[simp] theorem modify_length (st : DfsState) (i : Nat) (f : Vertex → Vertex) :
    (st.modifyVertex i f).g.vertices.length = st.g.vertices.length := by
  simp [DfsState.modifyVertex]

theorem visitEnter_vertexAt (st : DfsState) (v x : Nat) (hv : v < st.g.vertices.length) :
    (visitEnter st v).vertexAt x =
      if x = v then { st.vertexAt v with discovery_time := st.tiempo + 1, color := GRAY }
      else st.vertexAt x := by
  by_cases hx : x = v
  · subst hx
    simp [visitEnter, DfsState.modifyVertex, DfsState.vertexAt, getD_set, getD_set_getElem, hv]
  · simp [visitEnter, DfsState.modifyVertex, DfsState.vertexAt, getD_set, getD_set_getElem, hx]

@[simp] theorem visitEnter_tiempo (st : DfsState) (v : Nat) :
    (visitEnter st v).tiempo = st.tiempo + 1 := rfl

@[simp] theorem visitEnter_listado (st : DfsState) (v : Nat) :
    (visitEnter st v).listado = st.listado := rfl

@[simp] theorem visitEnter_length (st : DfsState) (v : Nat) :
    (visitEnter st v).g.vertices.length = st.g.vertices.length := by
  simp [visitEnter]

theorem paintDiscovered_vertexAt (s : DfsState) (v w x : Nat)
    (hw : w < s.g.vertices.length) :
    (paintDiscovered s v w).vertexAt x =
      if x = w then
        { s.vertexAt w with color := GRAY, predecessor := (s.vertexAt v).data }
      else s.vertexAt x := by
  have hdata : Vertex_GetData ((s.modifyVertex w
      (fun vx => { vx with color := GRAY })).vertexAt v) = (s.vertexAt v).data := by
    rw [vertexAt_modify]
    by_cases hvx : v = w ∧ w < s.g.vertices.length
    · rw [if_pos hvx]; rcases hvx with ⟨h1, _⟩; subst h1; rfl
    · rw [if_neg hvx]; rfl
  by_cases hx : x = w
  · subst hx
    simp [paintDiscovered, DfsState.modifyVertex, DfsState.vertexAt, getD_set, getD_set_getElem, hw,
      Vertex_GetData] at hdata ⊢
    rw [hdata]
  · simp [paintDiscovered, DfsState.modifyVertex, DfsState.vertexAt, getD_set, getD_set_getElem, hx]

@[simp] theorem paintDiscovered_tiempo (s : DfsState) (v w : Nat) :
    (paintDiscovered s v w).tiempo = s.tiempo := rfl

@[simp] theorem paintDiscovered_listado (s : DfsState) (v w : Nat) :
    (paintDiscovered s v w).listado = s.listado := rfl

@[simp] theorem paintDiscovered_length (s : DfsState) (v w : Nat) :
    (paintDiscovered s v w).g.vertices.length = s.g.vertices.length := by
  simp [paintDiscovered]

theorem visitFinish_vertexAt (st : DfsState) (v x : Nat) (hv : v < st.g.vertices.length) :
    (visitFinish st v).vertexAt x =
      if x = v then
        { st.vertexAt v with color := BLACK, discovery_time := st.tiempo + 1 }
      else st.vertexAt x := by
  by_cases hx : x = v
  · subst hx
    simp [visitFinish, DfsState.modifyVertex, DfsState.vertexAt, getD_set, getD_set_getElem, hv]
  · simp [visitFinish, DfsState.modifyVertex, DfsState.vertexAt, getD_set, getD_set_getElem, Queue_Enqueue, hx]

@[simp] theorem visitFinish_tiempo (st : DfsState) (v : Nat) :
    (visitFinish st v).tiempo = st.tiempo + 1 := rfl

@[simp] theorem visitFinish_cap (st : DfsState) (v : Nat) :
    (visitFinish st v).listado.cap = st.listado.cap := rfl

theorem visitFinish_items (st : DfsState) (v : Nat) (hv : v < st.g.vertices.length) :
    (visitFinish st v).listado.items =
      st.listado.items ++ [(st.vertexAt v).data] := by
  simp [visitFinish, Queue_Enqueue, DfsState.modifyVertex, DfsState.vertexAt, getD_set, getD_set_getElem, hv]

@[simp] theorem visitFinish_length (st : DfsState) (v : Nat) :
    (visitFinish st v).g.vertices.length = st.g.vertices.length := by
  simp [visitFinish]

/-! ### The traversal's unconditional frame -/

theorem frameEq_refl (s : DfsState) : FrameEq s s :=
  ⟨rfl, rfl, rfl, rfl, rfl, fun _ => ⟨rfl, rfl, rfl, rfl⟩⟩

theorem frameEq_trans {a b c : DfsState} (h1 : FrameEq a b) (h2 : FrameEq b c) :
    FrameEq a c := by
  obtain ⟨l1, n1, s1, t1, c1, f1⟩ := h1
  obtain ⟨l2, n2, s2, t2, c2, f2⟩ := h2
  refine ⟨l2.trans l1, n2.trans n1, s2.trans s1, t2.trans t1, c2.trans c1, fun x => ?_⟩
  obtain ⟨a1, b1, d1, e1⟩ := f1 x
  obtain ⟨a2, b2, d2, e2⟩ := f2 x
  exact ⟨a2.trans a1, b2.trans b1, d2.trans d1, e2.trans e1⟩

theorem frameEq_modify (st : DfsState) (i : Nat) (f : Vertex → Vertex)
    (hf : ∀ v : Vertex, (f v).data = v.data ∧ (f v).neighbors = v.neighbors ∧
      (f v).distance = v.distance ∧ (f v).finish_time = v.finish_time) :
    FrameEq st (st.modifyVertex i f) := by
  refine ⟨by simp, rfl, rfl, rfl, rfl, fun x => ?_⟩
  rw [vertexAt_modify]
  by_cases hx : x = i ∧ i < st.g.vertices.length
  · rw [if_pos hx]
    rcases hx with ⟨hxi, _⟩
    subst hxi
    exact hf (st.vertexAt x)
  · rw [if_neg hx]
    exact ⟨rfl, rfl, rfl, rfl⟩

theorem frameEq_visitEnter (st : DfsState) (v : Nat) : FrameEq st (visitEnter st v) := by
  have h1 : FrameEq st { st with tiempo := st.tiempo + 1 } :=
    ⟨rfl, rfl, rfl, rfl, rfl, fun x => ⟨rfl, rfl, rfl, rfl⟩⟩
  have h2 := frameEq_modify { st with tiempo := st.tiempo + 1 } v
      (fun vx => { vx with discovery_time := st.tiempo + 1 })
      (fun vx => ⟨rfl, rfl, rfl, rfl⟩)
  have h3 := frameEq_modify
      (DfsState.modifyVertex { st with tiempo := st.tiempo + 1 } v
        (fun vx => { vx with discovery_time := st.tiempo + 1 })) v
      (fun vx => { vx with color := GRAY })
      (fun vx => ⟨rfl, rfl, rfl, rfl⟩)
  exact frameEq_trans (frameEq_trans h1 h2) h3

theorem frameEq_paintDiscovered (s : DfsState) (v w : Nat) :
    FrameEq s (paintDiscovered s v w) := by
  have h1 := frameEq_modify s w (fun vx => { vx with color := GRAY })
      (fun vx => ⟨rfl, rfl, rfl, rfl⟩)
  have h2 := frameEq_modify (s.modifyVertex w (fun vx => { vx with color := GRAY })) w
      (fun vx =>
        { vx with
          predecessor := Vertex_GetData
            ((s.modifyVertex w (fun vy => { vy with color := GRAY })).vertexAt v) })
      (fun vx => ⟨rfl, rfl, rfl, rfl⟩)
  exact frameEq_trans h1 h2

theorem frameEq_visitFinish (st : DfsState) (v : Nat) : FrameEq st (visitFinish st v) := by
  have h1 := frameEq_modify st v (fun vx => { vx with color := BLACK })
      (fun vx => ⟨rfl, rfl, rfl, rfl⟩)
  have s1 : DfsState := st
  have h2 : FrameEq (st.modifyVertex v (fun vx => { vx with color := BLACK }))
      { st.modifyVertex v (fun vx => { vx with color := BLACK }) with
        tiempo := st.tiempo + 1 } :=
    ⟨rfl, rfl, rfl, rfl, rfl, fun x => ⟨rfl, rfl, rfl, rfl⟩⟩
  have h3 := frameEq_modify
      { st.modifyVertex v (fun vx => { vx with color := BLACK }) with
        tiempo := st.tiempo + 1 } v
      (fun vx => { vx with discovery_time := st.tiempo + 1 })
      (fun vx => ⟨rfl, rfl, rfl, rfl⟩)
  have h4 : FrameEq
      (DfsState.modifyVertex
        { st.modifyVertex v (fun vx => { vx with color := BLACK }) with
          tiempo := st.tiempo + 1 } v
        (fun vx => { vx with discovery_time := st.tiempo + 1 }))
      (visitFinish st v) :=
    ⟨rfl, rfl, rfl, rfl, rfl, fun x => ⟨rfl, rfl, rfl, rfl⟩⟩
  exact frameEq_trans (frameEq_trans (frameEq_trans h1 h2) h3) h4

theorem dfs_topol_traverse_succ (fuel : Nat) (st : DfsState) (v : Nat) :
    dfs_topol_traverse (fuel + 1) st v =
      visitFinish (visitLoop fuel (visitEnter st v) v) v := rfl

theorem traverse_frame : ∀ (fuel : Nat) (st : DfsState) (v : Nat),
    FrameEq st (dfs_topol_traverse fuel st v) := by
  intro fuel
  induction fuel with
  | zero => intro st v; exact frameEq_refl st
  | succ fuel ih =>
    intro st v
    rw [dfs_topol_traverse_succ]
    refine frameEq_trans (frameEq_trans (frameEq_visitEnter st v) ?_)
      (frameEq_visitFinish _ v)
    unfold visitLoop
    by_cases hn : Vertex_HasNeighbors ((visitEnter st v).vertexAt v) = true
    · rw [if_pos hn]
      refine foldl_rel FrameEq frameEq_refl (fun a b c => frameEq_trans) _ _
        (fun s e he => ?_) _
      by_cases hw : (s.vertexAt e.index.toNat).color = WHITE
      · rw [if_pos hw]
        exact frameEq_trans (frameEq_paintDiscovered s v e.index.toNat)
          (ih (paintDiscovered s v e.index.toNat) e.index.toNat)
      · rw [if_neg hw]
        exact frameEq_refl s
    · rw [if_neg hn]
      exact frameEq_refl _


/-! ### Colors of the traversal phases -/

theorem colorAt_visitEnter (st : DfsState) (v x : Nat) (hv : v < st.g.vertices.length) :
    colorAt (visitEnter st v) x = if x = v then GRAY else colorAt st x := by
  unfold colorAt
  rw [visitEnter_vertexAt st v x hv]
  by_cases hx : x = v
  · rw [if_pos hx, if_pos hx]
  · rw [if_neg hx, if_neg hx]

theorem colorAt_paintDiscovered (s : DfsState) (v w x : Nat)
    (hw : w < s.g.vertices.length) :
    colorAt (paintDiscovered s v w) x = if x = w then GRAY else colorAt s x := by
  unfold colorAt
  rw [paintDiscovered_vertexAt s v w x hw]
  by_cases hx : x = w
  · rw [if_pos hx, if_pos hx]
  · rw [if_neg hx, if_neg hx]

theorem colorAt_visitFinish (st : DfsState) (v x : Nat) (hv : v < st.g.vertices.length) :
    colorAt (visitFinish st v) x = if x = v then BLACK else colorAt st x := by
  unfold colorAt
  rw [visitFinish_vertexAt st v x hv]
  by_cases hx : x = v
  · rw [if_pos hx, if_pos hx]
  · rw [if_neg hx, if_neg hx]

/-! ### Frame consequences -/

theorem frameEq_neighborsOf {s t : DfsState} (h : FrameEq s t) (x : Nat) :
    neighborsOf t.g.vertices x = neighborsOf s.g.vertices x := by
  have hn := (h.2.2.2.2.2 x).2.1
  unfold neighborsOf
  exact congrArg (fun o => Option.getD o []) hn

theorem frameEq_data {s t : DfsState} (h : FrameEq s t) (x : Nat) :
    (t.vertexAt x).data = (s.vertexAt x).data := (h.2.2.2.2.2 x).1

theorem frameEq_finish {s t : DfsState} (h : FrameEq s t) (x : Nat) :
    (t.vertexAt x).finish_time = (s.vertexAt x).finish_time := (h.2.2.2.2.2 x).2.2.2

theorem frameEq_length {s t : DfsState} (h : FrameEq s t) :
    t.g.vertices.length = s.g.vertices.length := h.1

theorem frameEq_wfState {n : Nat} {s t : DfsState} (h : FrameEq s t)
    (hw : WFState n s) : WFState n t := by
  refine ⟨by rw [frameEq_length h]; exact hw.1, fun i hi e he => ?_⟩
  rw [frameEq_neighborsOf h] at he
  exact hw.2 i hi e he

theorem frameEq_dataFun {s t : DfsState} (h : FrameEq s t) :
    (fun x => (t.vertexAt x).data) = (fun x => (s.vertexAt x).data) :=
  funext (fun x => frameEq_data h x)

/-! ### Reachability -/

theorem Adj_congr {vs1 vs2 : List Vertex}
    (h : ∀ x, neighborsOf vs1 x = neighborsOf vs2 x) (x w : Nat) :
    Adj vs1 x w ↔ Adj vs2 x w := by
  unfold Adj
  rw [h]

theorem Reach_congr {vs1 vs2 : List Vertex} {s : Nat}
    (h : ∀ x, neighborsOf vs1 x = neighborsOf vs2 x) :
    ∀ {x : Nat}, Reach vs1 s x → Reach vs2 s x := by
  intro x hr
  induction hr with
  | refl => exact Reach.refl
  | tail hru hadj ih => exact Reach.tail ih ((Adj_congr h _ _).mp hadj)

theorem Reach_prepend {vs : List Vertex} {v w x : Nat}
    (hadj : Adj vs v w) (hr : Reach vs w x) : Reach vs v x := by
  induction hr with
  | refl => exact Reach.tail Reach.refl hadj
  | tail hru hadj2 ih => exact Reach.tail ih hadj2

/-! ### White counting -/

theorem whiteCount_le_mono {n : Nat} {s t : DfsState}
    (h : ∀ x, x < n → colorAt t x = WHITE → colorAt s x = WHITE) :
    whiteCount n t ≤ whiteCount n s := by
  unfold whiteCount
  refine countP_le_countP _ _ _ (fun x hx hp => ?_)
  have hxn := List.mem_range.mp hx
  have := of_decide_eq_true hp
  exact decide_eq_true (h x hxn this)

theorem whiteCount_congr {n : Nat} {s t : DfsState}
    (h : ∀ x, x < n → (colorAt s x = WHITE ↔ colorAt t x = WHITE)) :
    whiteCount n s = whiteCount n t :=
  Nat.le_antisymm
    (whiteCount_le_mono (fun x hx hw => (h x hx).mp hw))
    (whiteCount_le_mono (fun x hx hw => (h x hx).mpr hw))

theorem whiteCount_lt {n : Nat} {s t : DfsState}
    (hmono : ∀ x, x < n → colorAt t x = WHITE → colorAt s x = WHITE)
    (a : Nat) (ha : a < n) (hta : colorAt t a ≠ WHITE) (hsa : colorAt s a = WHITE) :
    whiteCount n t < whiteCount n s := by
  unfold whiteCount
  refine countP_lt_countP _ _ _ (fun x hx hp => ?_) a (List.mem_range.mpr ha) ?_ ?_
  · have hxn := List.mem_range.mp hx
    exact decide_eq_true (hmono x hxn (of_decide_eq_true hp))
  · exact decide_eq_false hta
  · exact decide_eq_true hsa

/-! ### Newly blackened vertices -/

theorem newlyBlack_nil {n : Nat} {s t : DfsState}
    (h : ∀ x, x < n → (colorAt t x = BLACK → colorAt s x = BLACK)) :
    newlyBlack n s t = [] := by
  unfold newlyBlack
  rw [List.filter_eq_nil_iff]
  intro a ha
  have han := List.mem_range.mp ha
  simp only [decide_eq_true_eq]
  intro hc
  exact hc.2 (h a han hc.1)

theorem newlyBlack_split {n : Nat} (s m t : DfsState)
    (hms : ∀ x, x < n → colorAt s x = BLACK → colorAt m x = BLACK)
    (hmt : ∀ x, x < n → colorAt m x = BLACK → colorAt t x = BLACK) :
    (newlyBlack n s t).Perm (newlyBlack n s m ++ newlyBlack n m t) := by
  unfold newlyBlack
  refine filter_perm_append _ _ _ _ (fun x hx => ?_) (fun x hx => ?_)
  · have hxn := List.mem_range.mp hx
    by_cases hS : colorAt s x = BLACK
    · have hM := hms x hxn hS
      have hT := hmt x hxn hM
      simp [hS, hM, hT]
    · by_cases hM : colorAt m x = BLACK
      · have hT := hmt x hxn hM
        simp [hS, hM, hT]
      · by_cases hT : colorAt t x = BLACK
        · simp [hS, hM, hT]
        · simp [hS, hM, hT]
  · have hxn := List.mem_range.mp hx
    simp only [decide_eq_true_eq]
    rintro ⟨⟨h1, h2⟩, ⟨h3, h4⟩⟩
    exact h4 h1

theorem newlyBlack_congr {n : Nat} {s1 s2 t1 t2 : DfsState}
    (hs : ∀ x, x < n → (colorAt s1 x = BLACK ↔ colorAt s2 x = BLACK))
    (ht : ∀ x, x < n → (colorAt t1 x = BLACK ↔ colorAt t2 x = BLACK)) :
    newlyBlack n s1 t1 = newlyBlack n s2 t2 := by
  unfold newlyBlack
  refine List.filter_congr (fun x hx => ?_)
  have hxn := List.mem_range.mp hx
  refine decide_eq_decide.mpr ?_
  constructor
  · rintro ⟨h1, h2⟩
    exact ⟨(ht x hxn).mp h1, fun hc => h2 ((hs x hxn).mpr hc)⟩
  · rintro ⟨h1, h2⟩
    exact ⟨(ht x hxn).mpr h1, fun hc => h2 ((hs x hxn).mp hc)⟩


/-! ### Closure transfer and loop-body helpers -/

theorem closedBlack_transfer {n : Nat} {s t : DfsState}
    (hnb : ∀ y, neighborsOf t.g.vertices y = neighborsOf s.g.vertices y)
    (hblack : ∀ x, x < n → colorAt t x = BLACK → colorAt s x = BLACK)
    (hnw : ∀ y, colorAt s y ≠ WHITE → colorAt t y ≠ WHITE) :
    ClosedBlack n s → ClosedBlack n t := by
  intro hc x hx hbx e he
  rw [hnb] at he
  exact hnw _ (hc x hx (hblack x hx hbx) e he)

theorem visitLoop_eq_foldl (fuel : Nat) (st1 : DfsState) (v : Nat) :
    visitLoop fuel st1 v =
      (neighborsOf st1.g.vertices v).foldl
        (fun s e =>
          if (s.vertexAt e.index.toNat).color = WHITE then
            dfs_topol_traverse fuel (paintDiscovered s v e.index.toNat) e.index.toNat
          else s)
        st1 := by
  unfold visitLoop
  by_cases h : Vertex_HasNeighbors (st1.vertexAt v) = true
  · rw [if_pos h]
    rfl
  · rw [if_neg h]
    have hnone : (st1.vertexAt v).neighbors = none := by
      unfold Vertex_HasNeighbors at h
      cases hh : (st1.vertexAt v).neighbors with
      | none => rfl
      | some l => rw [hh] at h; exact absurd rfl h
    have : neighborsOf st1.g.vertices v = [] := by
      unfold neighborsOf
      have : (st1.g.vertices.getD v default).neighbors = none := hnone
      rw [this]
      rfl
    rw [this]
    rfl


/-! ### The loop specification -/

theorem loop_spec (fuel n : Nat)
    (ih : ∀ (st : DfsState) (v : Nat), WFState n st → v < n → colorAt st v = GRAY →
      whiteCount n st < fuel → VisitOut n st v (dfs_topol_traverse fuel st v)) (v : Nat) :
    ∀ (ns : List AdjEntry) (st : DfsState), WFState n st →
      (∀ e ∈ ns, 0 ≤ e.index ∧ e.index.toNat < n) →
      v < n → colorAt st v = GRAY → whiteCount n st ≤ fuel →
      LoopOut n st v ns
        (ns.foldl
          (fun s e =>
            if (s.vertexAt e.index.toNat).color = WHITE then
              dfs_topol_traverse fuel (paintDiscovered s v e.index.toNat) e.index.toNat
            else s)
          st) := by
  intro ns
  induction ns with
  | nil =>
    intro st hwf hns hv hg hfuel
    have hq : newlyBlack n st st = [] := newlyBlack_nil (fun x hx h => h)
    exact { feq := frameEq_refl st
            wc_le := le_refl _
            frame := fun x _ => rfl
            gray_sub := fun x h => h
            nonwhite_mono := fun x h => h
            reach_new := fun x h => Or.inl h
            closed := fun h => h
            done := fun e he => absurd he (List.not_mem_nil e)
            queue := ⟨[], by simp, by simp only [List.foldl_nil]; rw [hq]; simp⟩ }
  | cons e rest ihrest =>
    intro st hwf hns hv hg hfuel
    rw [List.foldl_cons]
    by_cases hwhite : (st.vertexAt e.index.toNat).color = WHITE
    · -- discovery branch
      rw [if_pos hwhite]
      set w := e.index.toNat with hw_def
      have hwhiteC : colorAt st w = WHITE := hwhite
      have hwn : w < n := (hns e (List.mem_cons_self e rest)).2
      have hwlen : w < st.g.vertices.length := lt_of_lt_of_le hwn hwf.1
      have hvw : v ≠ w := by
        intro h
        rw [h, hwhiteC] at hg
        exact absurd hg (by decide)
      set stA := paintDiscovered st v w with hstA_def
      have hfA : FrameEq st stA := frameEq_paintDiscovered st v w
      have hwfA : WFState n stA := frameEq_wfState hfA hwf
      have hcolA : ∀ x, colorAt stA x = if x = w then GRAY else colorAt st x :=
        fun x => colorAt_paintDiscovered st v w x hwlen
      have hgA : colorAt stA w = GRAY := by rw [hcolA w, if_pos rfl]
      have hgvA : colorAt stA v = GRAY := by rw [hcolA v, if_neg hvw]; exact hg
      have hwcA : whiteCount n stA < whiteCount n st := by
        refine whiteCount_lt (fun x hx hwx => ?_) w hwn ?_ hwhiteC
        · rw [hcolA x] at hwx
          by_cases hxw : x = w
          · rw [if_pos hxw] at hwx; exact absurd hwx (by decide)
          · rw [if_neg hxw] at hwx; exact hwx
        · rw [hgA]; decide
      have hwcA_fuel : whiteCount n stA < fuel := lt_of_lt_of_le hwcA hfuel
      have hVisit := ih stA w hwfA hwn hgA hwcA_fuel
      set stB := dfs_topol_traverse fuel stA w with hstB_def
      have hfB : FrameEq stA stB := hVisit.feq
      have hfAB : FrameEq st stB := frameEq_trans hfA hfB
      have hwfB : WFState n stB := frameEq_wfState hfAB hwf
      have hvB : stB.vertexAt v = stA.vertexAt v :=
        hVisit.frame v hvw (by rw [hgvA]; decide)
      have hgvB : colorAt stB v = GRAY := by
        unfold colorAt; rw [hvB]; exact hgvA
      have hwcB : whiteCount n stB ≤ fuel := le_trans hVisit.wc_le (le_of_lt hwcA_fuel)
      have hrest := ihrest stB hwfB (fun e' he' => hns e' (List.mem_cons_of_mem e he'))
        hv hgvB hwcB
      -- black monotonicity across the three stages
      have hblackA : ∀ x, colorAt st x = BLACK → colorAt stA x = BLACK := by
        intro x hb
        rw [hcolA x]
        by_cases hxw : x = w
        · subst hxw; rw [hwhiteC] at hb; exact absurd hb (by decide)
        · rw [if_neg hxw]; exact hb
      have hblackA' : ∀ x, colorAt stA x = BLACK → colorAt st x = BLACK := by
        intro x hb
        rw [hcolA x] at hb
        by_cases hxw : x = w
        · rw [if_pos hxw] at hb; exact absurd hb (by decide)
        · rw [if_neg hxw] at hb; exact hb
      have hblackB : ∀ x, colorAt st x = BLACK → colorAt stB x = BLACK := by
        intro x hb
        have hxw : x ≠ w := by
          intro hxw; subst hxw; rw [hwhiteC] at hb; exact absurd hb (by decide)
        have hnwx : colorAt stA x ≠ WHITE := by rw [hblackA x hb]; decide
        unfold colorAt
        rw [hVisit.frame x hxw hnwx]
        exact hblackA x hb
      have hblackOut : ∀ x, colorAt stB x = BLACK →
          colorAt ((rest.foldl (fun s e =>
            if (s.vertexAt e.index.toNat).color = WHITE then
              dfs_topol_traverse fuel (paintDiscovered s v e.index.toNat) e.index.toNat
            else s) stB)) x = BLACK := by
        intro x hb
        unfold colorAt
        rw [hrest.frame x (by rw [hb]; decide)]
        exact hb
      -- the composed frame fact
      have hframe : ∀ x, colorAt st x ≠ WHITE →
          (rest.foldl (fun s e =>
            if (s.vertexAt e.index.toNat).color = WHITE then
              dfs_topol_traverse fuel (paintDiscovered s v e.index.toNat) e.index.toNat
            else s) stB).vertexAt x = st.vertexAt x := by
        intro x hx
        have hxw : x ≠ w := by intro h; subst h; exact hx hwhiteC
        have h1 : stA.vertexAt x = st.vertexAt x := by
          rw [hstA_def, paintDiscovered_vertexAt st v w x hwlen, if_neg hxw]
        have hxA : colorAt stA x ≠ WHITE := by unfold colorAt; rw [h1]; exact hx
        have h2 : stB.vertexAt x = stA.vertexAt x := hVisit.frame x hxw hxA
        have hxB : colorAt stB x ≠ WHITE := by unfold colorAt; rw [h2]; exact hxA
        have h3 := hrest.frame x hxB
        rw [h3, h2, h1]
      have hdataA : (fun x => (stA.vertexAt x).data) = (fun x => (st.vertexAt x).data) :=
        frameEq_dataFun hfA
      have hdataB : (fun x => (stB.vertexAt x).data) = (fun x => (st.vertexAt x).data) :=
        frameEq_dataFun hfAB
      refine { feq := frameEq_trans hfAB hrest.feq
               wc_le := le_trans hrest.wc_le (le_trans hVisit.wc_le (le_of_lt hwcA))
               frame := hframe
               gray_sub := ?_
               nonwhite_mono := ?_
               reach_new := ?_
               closed := ?_
               done := ?_
               queue := ?_ }
      · -- gray_sub
        intro x hgx
        have h1 := hrest.gray_sub x hgx
        have h2 := hVisit.gray_sub x h1
        have h3 := h2.1
        rw [hcolA x, if_neg h2.2] at h3
        exact h3
      · -- nonwhite_mono
        intro x hx
        unfold colorAt
        rw [hframe x hx]
        exact hx
      · -- reach_new
        intro x hb
        rcases hrest.reach_new x hb with hbB | ⟨e', he', hr⟩
        · rcases hVisit.reach_new x hbB with hbA | hrA
          · exact Or.inl (hblackA' x hbA)
          · exact Or.inr ⟨e, List.mem_cons_self e rest,
              Reach_congr (fun y => frameEq_neighborsOf hfA y) hrA⟩
        · exact Or.inr ⟨e', List.mem_cons_of_mem e he',
            Reach_congr (fun y => frameEq_neighborsOf hfAB y) hr⟩
      · -- closed
        intro hc
        refine hrest.closed (hVisit.closed (closedBlack_transfer
          (fun y => frameEq_neighborsOf hfA y) (fun x hx hb => hblackA' x hb)
          (fun y hy => ?_) hc))
        rw [hcolA y]
        by_cases hyw : y = w
        · subst hyw; exact absurd hwhiteC hy
        · rw [if_neg hyw]; exact hy
      · -- done
        intro e' he'
        rcases List.mem_cons.mp he' with h1 | h1
        · have hbB : colorAt stB e'.index.toNat = BLACK := by
            rw [h1]; exact hVisit.black_v
          have := hblackOut e'.index.toNat hbB
          rw [this]
          decide
        · exact hrest.done e' h1
      · -- queue
        obtain ⟨l1, hq1, hp1⟩ := hVisit.queue
        obtain ⟨l2, hq2, hp2⟩ := hrest.queue
        refine ⟨l1 ++ [(stA.vertexAt w).data] ++ l2, ?_, ?_⟩
        · rw [hq2, hq1]
          have hqA : stA.listado.items = st.listado.items := by
            rw [hstA_def]; rfl
          rw [hqA]
          simp [List.append_assoc]
        · have hsplit := @newlyBlack_split n st stB
            (rest.foldl (fun s e =>
              if (s.vertexAt e.index.toNat).color = WHITE then
                dfs_topol_traverse fuel (paintDiscovered s v e.index.toNat) e.index.toNat
              else s) stB)
            (fun x hx hb => hblackB x hb) (fun x hx hb => hblackOut x hb)
          have hcongr : newlyBlack n st stB = newlyBlack n stA stB :=
            @newlyBlack_congr n st stA stB stB
              (fun x hx => ⟨fun h => hblackA x h, fun h => hblackA' x h⟩)
              (fun x hx => Iff.rfl)
          have h1 : ((l1 ++ [(stA.vertexAt w).data]) ++ l2).Perm
              ((newlyBlack n stA stB).map (fun x => (st.vertexAt x).data) ++
               (newlyBlack n stB (rest.foldl (fun s e =>
                 if (s.vertexAt e.index.toNat).color = WHITE then
                   dfs_topol_traverse fuel (paintDiscovered s v e.index.toNat) e.index.toNat
                 else s) stB)).map (fun x => (st.vertexAt x).data)) := by
            refine List.Perm.append ?_ ?_
            · rw [← hdataA]; exact hp1
            · rw [← hdataB]; exact hp2
          have h2 : ((newlyBlack n st (rest.foldl (fun s e =>
              if (s.vertexAt e.index.toNat).color = WHITE then
                dfs_topol_traverse fuel (paintDiscovered s v e.index.toNat) e.index.toNat
              else s) stB)).map (fun x => (st.vertexAt x).data)).Perm
              ((newlyBlack n stA stB).map (fun x => (st.vertexAt x).data) ++
               (newlyBlack n stB (rest.foldl (fun s e =>
                 if (s.vertexAt e.index.toNat).color = WHITE then
                   dfs_topol_traverse fuel (paintDiscovered s v e.index.toNat) e.index.toNat
                 else s) stB)).map (fun x => (st.vertexAt x).data)) := by
            rw [← hcongr, ← List.map_append]
            exact List.Perm.map _ hsplit
          exact h1.trans h2.symm
    · -- skip branch: the neighbor is not WHITE
      rw [if_neg hwhite]
      have hrest := ihrest st hwf (fun e' he' => hns e' (List.mem_cons_of_mem e he'))
        hv hg hfuel
      exact { feq := hrest.feq
              wc_le := hrest.wc_le
              frame := hrest.frame
              gray_sub := hrest.gray_sub
              nonwhite_mono := hrest.nonwhite_mono
              reach_new := fun x hb => (hrest.reach_new x hb).imp id
                (fun h => by
                  obtain ⟨e', he', hr⟩ := h
                  exact ⟨e', List.mem_cons_of_mem e he', hr⟩)
              closed := hrest.closed
              done := fun e' he' => by
                rcases List.mem_cons.mp he' with h1 | h1
                · rw [h1]; exact hrest.nonwhite_mono e.index.toNat hwhite
                · exact hrest.done e' h1
              queue := hrest.queue }


/-! ### The visit specification -/

theorem visit_spec : ∀ (fuel n : Nat) (st : DfsState) (v : Nat),
    WFState n st → v < n → colorAt st v = GRAY → whiteCount n st < fuel →
    VisitOut n st v (dfs_topol_traverse fuel st v) := by
  intro fuel
  induction fuel with
  | zero =>
    intro n st v hwf hv hg hfuel
    exact absurd hfuel (Nat.not_lt_zero _)
  | succ fuel ihf =>
    intro n st v hwf hv hg hfuel
    rw [dfs_topol_traverse_succ, visitLoop_eq_foldl]
    set st1 := visitEnter st v with hst1_def
    have hlen : v < st.g.vertices.length := lt_of_lt_of_le hv hwf.1
    have hf1 : FrameEq st st1 := frameEq_visitEnter st v
    have hwf1 : WFState n st1 := frameEq_wfState hf1 hwf
    have hcol1 : ∀ x, colorAt st1 x = if x = v then GRAY else colorAt st x :=
      fun x => colorAt_visitEnter st v x hlen
    have hg1 : colorAt st1 v = GRAY := by rw [hcol1 v, if_pos rfl]
    have hcolEq : ∀ x, x ≠ v → colorAt st1 x = colorAt st x :=
      fun x hx => by rw [hcol1 x, if_neg hx]
    have hwc1 : whiteCount n st1 = whiteCount n st := by
      refine whiteCount_congr (fun x hx => ?_)
      rw [hcol1 x]
      by_cases hxv : x = v
      · subst hxv
        rw [if_pos rfl, hg]
      · rw [if_neg hxv]
    have hfuel1 : whiteCount n st1 ≤ fuel := by rw [hwc1]; omega
    have hLoop := loop_spec fuel n (fun st' v' => ihf n st' v') v
      (neighborsOf st1.g.vertices v) st1 hwf1
      (fun e he => hwf.2 v hv e (by
        rw [← frameEq_neighborsOf hf1 v]
        exact he))
      hv hg1 hfuel1
    set st4 := (neighborsOf st1.g.vertices v).foldl
      (fun s e =>
        if (s.vertexAt e.index.toNat).color = WHITE then
          dfs_topol_traverse fuel (paintDiscovered s v e.index.toNat) e.index.toNat
        else s) st1 with hst4_def
    have hf4 : FrameEq st st4 := frameEq_trans hf1 hLoop.feq
    have h4len : v < st4.g.vertices.length := by rw [hf4.1]; exact hlen
    have hv4 : st4.vertexAt v = st1.vertexAt v :=
      hLoop.frame v (by rw [hg1]; decide)
    have hg4 : colorAt st4 v = GRAY := by unfold colorAt; rw [hv4]; exact hg1
    have hcolF : ∀ x, colorAt (visitFinish st4 v) x =
        if x = v then BLACK else colorAt st4 x :=
      fun x => colorAt_visitFinish st4 v x h4len
    have hnbrs4 : ∀ y, neighborsOf st4.g.vertices y = neighborsOf st.g.vertices y :=
      fun y => frameEq_neighborsOf hf4 y
    have hfFin : FrameEq st (visitFinish st4 v) :=
      frameEq_trans hf4 (frameEq_visitFinish st4 v)
    have hnbrsF : ∀ y,
        neighborsOf (visitFinish st4 v).g.vertices y = neighborsOf st.g.vertices y :=
      fun y => frameEq_neighborsOf hfFin y
    have hframe : ∀ x, x ≠ v → colorAt st x ≠ WHITE →
        (visitFinish st4 v).vertexAt x = st.vertexAt x := by
      intro x hxv hx
      have h1 : st1.vertexAt x = st.vertexAt x := by
        rw [hst1_def, visitEnter_vertexAt st v x hlen, if_neg hxv]
      have hx1 : colorAt st1 x ≠ WHITE := by unfold colorAt; rw [h1]; exact hx
      have h2 : st4.vertexAt x = st1.vertexAt x := hLoop.frame x hx1
      have hx4 : colorAt st4 x ≠ WHITE := by unfold colorAt; rw [h2]; exact hx1
      have h3 : (visitFinish st4 v).vertexAt x = st4.vertexAt x := by
        rw [visitFinish_vertexAt st4 v x h4len, if_neg hxv]
      rw [h3, h2, h1]
    refine { feq := hfFin
             wc_le := ?_
             frame := hframe
             black_v := by rw [hcolF v, if_pos rfl]
             gray_sub := ?_
             nonwhite_mono := ?_
             reach_new := ?_
             closed := ?_
             nbrs := ?_
             disc_v := ?_
             queue := ?_ }
    · -- wc_le
      have heq : whiteCount n (visitFinish st4 v) = whiteCount n st4 := by
        refine whiteCount_congr (fun x hx => ?_)
        rw [hcolF x]
        by_cases hxv : x = v
        · subst hxv
          rw [if_pos rfl, hg4]
          constructor
          · intro h; exact absurd h (by decide)
          · intro h; exact absurd h (by decide)
        · rw [if_neg hxv]
      rw [heq]
      exact le_trans hLoop.wc_le (le_of_eq hwc1)
    · -- gray_sub
      intro x hgx
      have hxv : x ≠ v := by
        intro h
        rw [h, hcolF v, if_pos rfl] at hgx
        exact absurd hgx (by decide)
      have h4 : colorAt st4 x = GRAY := by rw [hcolF x, if_neg hxv] at hgx; exact hgx
      have h1 : colorAt st1 x = GRAY := hLoop.gray_sub x h4
      rw [hcolEq x hxv] at h1
      exact ⟨h1, hxv⟩
    · -- nonwhite_mono
      intro x hx
      by_cases hxv : x = v
      · rw [hxv, hcolF v, if_pos rfl]; decide
      · unfold colorAt
        rw [hframe x hxv hx]
        exact hx
    · -- reach_new
      intro x hb
      by_cases hxv : x = v
      · exact Or.inr (hxv ▸ Reach.refl)
      · rw [hcolF x, if_neg hxv] at hb
        rcases hLoop.reach_new x hb with hb1 | ⟨e, he, hr⟩
        · rw [hcolEq x hxv] at hb1
          exact Or.inl hb1
        · have he' : e ∈ neighborsOf st.g.vertices v := by
            rw [← frameEq_neighborsOf hf1 v]
            exact he
          have hadj : Adj st.g.vertices v e.index.toNat := ⟨e, he', rfl⟩
          have hr' : Reach st.g.vertices e.index.toNat x :=
            Reach_congr (fun y => frameEq_neighborsOf hf1 y) hr
          exact Or.inr (Reach_prepend hadj hr')
    · -- closed
      intro hc
      have hc1 : ClosedBlack n st1 :=
        closedBlack_transfer (fun y => frameEq_neighborsOf hf1 y)
          (fun x hx hb => by
            by_cases hxv : x = v
            · rw [hxv, hg1] at hb; exact absurd hb (by decide)
            · rw [hcolEq x hxv] at hb; exact hb)
          (fun y hy => by
            by_cases hyv : y = v
            · rw [hyv, hg1]; decide
            · rw [hcolEq y hyv]; exact hy)
          hc
      have hc4 : ClosedBlack n st4 := hLoop.closed hc1
      intro x hx hbx e he
      rw [hnbrsF x] at he
      by_cases hxv : x = v
      · have hdone := hLoop.done e (by
          rw [frameEq_neighborsOf hf1 v]
          exact hxv ▸ he)
        by_cases hev : e.index.toNat = v
        · rw [hev, hcolF v, if_pos rfl]; decide
        · rw [hcolF, if_neg hev]; exact hdone
      · have hb4 : colorAt st4 x = BLACK := by
          rw [hcolF x, if_neg hxv] at hbx; exact hbx
        have hnw := hc4 x hx hb4 e (by rw [hnbrs4 x]; exact he)
        by_cases hev : e.index.toNat = v
        · rw [hev, hcolF v, if_pos rfl]; decide
        · rw [hcolF, if_neg hev]; exact hnw
    · -- nbrs
      intro e he
      have hdone := hLoop.done e (by rw [frameEq_neighborsOf hf1 v]; exact he)
      by_cases hev : e.index.toNat = v
      · rw [hev, hcolF v, if_pos rfl]; decide
      · rw [hcolF, if_neg hev]; exact hdone
    · -- disc_v
      rw [visitFinish_vertexAt st4 v v h4len, if_pos rfl, visitFinish_tiempo]
    · -- queue
      obtain ⟨l, hq, hp⟩ := hLoop.queue
      have hitems1 : st1.listado.items = st.listado.items := rfl
      have hdv : (st4.vertexAt v).data = (st.vertexAt v).data := frameEq_data hf4 v
      have hdata1 : (fun x => (st1.vertexAt x).data) = (fun x => (st.vertexAt x).data) :=
        frameEq_dataFun hf1
      refine ⟨l, ?_, ?_⟩
      · rw [visitFinish_items st4 v h4len, hq, hitems1, hdv]
      · have hsplit := @newlyBlack_split n st st4 (visitFinish st4 v)
          (fun x hx hb => by
            have hxv : x ≠ v := by
              intro h
              rw [h, hg] at hb
              exact absurd hb (by decide)
            have h1 : colorAt st1 x = BLACK := by rw [hcolEq x hxv]; exact hb
            have h4 : st4.vertexAt x = st1.vertexAt x :=
              hLoop.frame x (by rw [h1]; decide)
            unfold colorAt
            rw [h4]
            exact h1)
          (fun x hx hb => by
            by_cases hxv : x = v
            · rw [hxv, hcolF v, if_pos rfl]
            · rw [hcolF x, if_neg hxv]; exact hb)
        have hlast : newlyBlack n st4 (visitFinish st4 v) = [v] := by
          unfold newlyBlack
          have hcg : ∀ x ∈ List.range n,
              decide (colorAt (visitFinish st4 v) x = BLACK ∧ colorAt st4 x ≠ BLACK) =
              decide (x = v) := by
            intro x hx
            by_cases hxv : x = v
            · have h1 : colorAt (visitFinish st4 v) x = BLACK := by
                rw [hcolF x, if_pos hxv]
              have h2 : colorAt st4 x ≠ BLACK := by rw [hxv, hg4]; decide
              rw [decide_eq_true ⟨h1, h2⟩, decide_eq_true hxv]
            · have h1 : colorAt (visitFinish st4 v) x = colorAt st4 x := by
                rw [hcolF x, if_neg hxv]
              rw [decide_eq_false, decide_eq_false hxv]
              rintro ⟨ha, hb⟩
              rw [h1] at ha
              exact hb ha
          rw [List.filter_congr hcg, range_filter_eq_single n v hv]
        have hcongr : newlyBlack n st st4 = newlyBlack n st1 st4 :=
          @newlyBlack_congr n st st1 st4 st4
            (fun x hx => by
              by_cases hxv : x = v
              · subst hxv
                constructor
                · intro h; rw [hg] at h; exact absurd h (by decide)
                · intro h; rw [hg1] at h; exact absurd h (by decide)
              · rw [hcolEq x hxv])
            (fun x hx => Iff.rfl)
        have hperm2 : ((newlyBlack n st (visitFinish st4 v)).map
            (fun x => (st.vertexAt x).data)).Perm
            ((newlyBlack n st st4).map (fun x => (st.vertexAt x).data) ++
             (newlyBlack n st4 (visitFinish st4 v)).map (fun x => (st.vertexAt x).data)) := by
          rw [← List.map_append]
          exact List.Perm.map _ hsplit
        rw [hcongr, hlast] at hperm2
        simp only [List.map_cons, List.map_nil] at hperm2
        rw [hdata1] at hp
        exact (List.Perm.append hp (List.Perm.refl _)).trans hperm2.symm


/-! ### Key lookup and reset lemmas -/

theorem resetFirst_length : ∀ (n : Nat) (vs : List Vertex),
    (resetFirst n vs).length = vs.length := by
  intro n
  induction n with
  | zero => intro vs; rfl
  | succ n ih =>
    intro vs
    cases vs with
    | nil => rfl
    | cons v rest => simp [resetFirst, ih rest]

theorem resetFirst_getD : ∀ (n : Nat) (vs : List Vertex) (i : Nat),
    (resetFirst n vs).getD i default =
      if i < n ∧ i < vs.length then resetVertex (vs.getD i default)
      else vs.getD i default := by
  intro n
  induction n with
  | zero => intro vs i; simp [resetFirst]
  | succ n ih =>
    intro vs i
    cases vs with
    | nil => simp [resetFirst]
    | cons v rest =>
      cases i with
      | zero => simp [resetFirst]
      | succ i =>
        have := ih rest i
        simp only [resetFirst, List.getD_cons_succ, List.length_cons]
        rw [this]
        by_cases h1 : i < n ∧ i < rest.length
        · rw [if_pos h1, if_pos ⟨by omega, by omega⟩]
        · rw [if_neg h1, if_neg (by omega)]

theorem getD_take {α : Type} [Inhabited α] :
    ∀ (l : List α) (m i : Nat), i < m → (l.take m).getD i default = l.getD i default := by
  intro l
  induction l with
  | nil => intro m i h; simp
  | cons x xs ih =>
    intro m i h
    cases m with
    | zero => omega
    | succ m =>
      cases i with
      | zero => simp
      | succ i => simpa using ih m i (by omega)

theorem scanKey_some_spec : ∀ (l : List Vertex) (key : Int) (i : Nat),
    scanKey l key = some i →
    i < l.length ∧ (l.getD i default).data = key ∧
      ∀ j, j < i → (l.getD j default).data ≠ key := by
  intro l
  induction l with
  | nil => intro key i h; cases h
  | cons v rest ih =>
    intro key i h
    unfold scanKey at h
    by_cases hv : v.data = key
    · rw [if_pos hv] at h
      cases h
      exact ⟨by simp, hv, fun j hj => by omega⟩
    · rw [if_neg hv] at h
      rcases Option.map_eq_some'.mp h with ⟨i0, hi0, hi⟩
      obtain ⟨h1, h2, h3⟩ := ih key i0 hi0
      subst hi
      refine ⟨by simpa using h1, by simpa using h2, fun j hj => ?_⟩
      cases j with
      | zero => simpa using hv
      | succ j => simpa using h3 j (by omega)

theorem scanKey_none_spec : ∀ (l : List Vertex) (key : Int),
    scanKey l key = none ↔ ∀ j, j < l.length → (l.getD j default).data ≠ key := by
  intro l
  induction l with
  | nil => intro key; simp [scanKey]
  | cons v rest ih =>
    intro key
    unfold scanKey
    by_cases hv : v.data = key
    · rw [if_pos hv]
      constructor
      · intro h; cases h
      · intro h; exact absurd hv (h 0 (by simp))
    · rw [if_neg hv]
      constructor
      · intro h j hj
        have hrest : scanKey rest key = none := by
          cases hh : scanKey rest key with
          | none => rfl
          | some i => rw [hh] at h; cases h
        cases j with
        | zero => simpa using hv
        | succ j => simpa using (ih key).mp hrest j (by simpa using hj)
      · intro h
        have : scanKey rest key = none :=
          (ih key).mpr (fun j hj => by simpa using h (j + 1) (by simpa using hj))
        rw [this]
        rfl

theorem scanKey_found : ∀ (l : List Vertex) (key : Int) (j : Nat),
    j < l.length → (l.getD j default).data = key →
    ∃ i, scanKey l key = some i ∧ i ≤ j := by
  intro l
  induction l with
  | nil => intro key j h; simp at h
  | cons v rest ih =>
    intro key j hj hd
    unfold scanKey
    by_cases hv : v.data = key
    · exact ⟨0, by rw [if_pos hv], Nat.zero_le j⟩
    · rw [if_neg hv]
      cases j with
      | zero => exact absurd (by simpa using hd) hv
      | succ j =>
        obtain ⟨i, hi, hij⟩ := ih key j (by simpa using hj) (by simpa using hd)
        exact ⟨i + 1, by rw [hi]; rfl, by omega⟩

theorem getVertexByKey_some (g : Graph) (key : Int) (i : Nat)
    (h : Graph_GetVertexByKey g key = some i) :
    i < g.len ∧ (g.vertices.getD i default).data = key ∧
      ∀ j, j < i → (g.vertices.getD j default).data ≠ key := by
  obtain ⟨h1, h2, h3⟩ := scanKey_some_spec (g.vertices.take g.len) key i h
  rw [List.length_take] at h1
  have hin : i < g.len := lt_of_lt_of_le h1 (min_le_left _ _)
  rw [getD_take _ _ _ hin] at h2
  refine ⟨hin, h2, fun j hj => ?_⟩
  have := h3 j hj
  rwa [getD_take _ _ _ (lt_trans hj hin)] at this

theorem getVertexByKey_none_of (g : Graph) (key : Int)
    (h : ∀ i, i < g.len → (g.vertices.getD i default).data ≠ key) :
    Graph_GetVertexByKey g key = none := by
  refine (scanKey_none_spec _ key).mpr (fun j hj => ?_)
  rw [List.length_take] at hj
  have hjn : j < g.len := lt_of_lt_of_le hj (min_le_left _ _)
  rw [getD_take _ _ _ hjn]
  exact h j hjn

theorem getVertexByKey_found (g : Graph) (key : Int) (j : Nat)
    (hj : j < g.len) (hjl : j < g.vertices.length)
    (hd : (g.vertices.getD j default).data = key) :
    ∃ i, Graph_GetVertexByKey g key = some i ∧ i ≤ j := by
  have hjt : j < (g.vertices.take g.len).length := by
    rw [List.length_take]
    omega
  have hdt : ((g.vertices.take g.len).getD j default).data = key := by
    rw [getD_take _ _ _ hj]
    exact hd
  exact scanKey_found (g.vertices.take g.len) key j hjt hdt

theorem scanKey_congr (key : Int) : ∀ (l1 l2 : List Vertex), l1.length = l2.length →
    (∀ i, i < l1.length → (l1.getD i default).data = (l2.getD i default).data) →
    scanKey l1 key = scanKey l2 key := by
  intro l1
  induction l1 with
  | nil =>
    intro l2 hlen h
    cases l2 with
    | nil => rfl
    | cons v rest => simp at hlen
  | cons v1 r1 ih =>
    intro l2 hlen h
    cases l2 with
    | nil => simp at hlen
    | cons v2 r2 =>
      have h0 : v1.data = v2.data := by simpa using h 0 (by simp)
      unfold scanKey
      rw [h0]
      by_cases hv : v2.data = key
      · rw [if_pos hv, if_pos hv]
      · rw [if_neg hv, if_neg hv]
        rw [ih r2 (by simpa using hlen) (fun i hi => by simpa using h (i + 1) (by simpa using hi))]

theorem getKey_reset (g : Graph) (key : Int) :
    Graph_GetVertexByKey { g with vertices := resetFirst g.len g.vertices } key =
      Graph_GetVertexByKey g key := by
  unfold Graph_GetVertexByKey
  refine scanKey_congr key _ _ ?_ ?_
  · simp [List.length_take, resetFirst_length]
  · intro i hi
    simp only [List.length_take, resetFirst_length] at hi
    have hin : i < g.len := lt_of_lt_of_le hi (min_le_left _ _)
    rw [getD_take _ _ _ hin, getD_take _ _ _ hin, resetFirst_getD]
    by_cases hc : i < g.len ∧ i < g.vertices.length
    · rw [if_pos hc]; rfl
    · rw [if_neg hc]


/-! ### Properties of the pre-traversal state -/

theorem resetState_length (g : Graph) :
    (resetState g).g.vertices.length = g.vertices.length := by
  simp [resetState, resetFirst_length]

theorem resetState_vertexAt (g : Graph) (y : Nat) :
    (resetState g).vertexAt y =
      if y < g.len ∧ y < g.vertices.length then resetVertex (g.vertexAt y)
      else g.vertexAt y := by
  show (resetFirst g.len g.vertices).getD y default = _
  rw [resetFirst_getD]
  rfl

theorem startState_length (g : Graph) (s : Nat) :
    (startState g s).g.vertices.length = g.vertices.length := by
  simp [startState, resetState_length]

theorem startState_vertexAt (g : Graph) (s : Nat) (x : Nat)
    (hsl : s < g.vertices.length) :
    (startState g s).vertexAt x =
      if x = s then
        (if s < g.len then { resetVertex (g.vertexAt s) with color := GRAY }
         else { g.vertexAt s with color := GRAY })
      else if x < g.len ∧ x < g.vertices.length then resetVertex (g.vertexAt x)
      else g.vertexAt x := by
  unfold startState
  rw [vertexAt_modify, resetState_length]
  by_cases hx : x = s
  · rw [if_pos ⟨hx, hsl⟩, if_pos hx, resetState_vertexAt]
    by_cases hsn : s < g.len
    · rw [if_pos ⟨hsn, hsl⟩, if_pos hsn]
    · rw [if_neg (by omega), if_neg hsn]
  · rw [if_neg (by intro hc; exact hx hc.1), if_neg hx, resetState_vertexAt]

theorem startState_color_s (g : Graph) (s : Nat) (hsl : s < g.vertices.length) :
    colorAt (startState g s) s = GRAY := by
  unfold colorAt
  rw [startState_vertexAt g s s hsl, if_pos rfl]
  by_cases hsn : s < g.len
  · rw [if_pos hsn]
  · rw [if_neg hsn]

theorem startState_color_other (g : Graph) (s : Nat) (x : Nat)
    (hsl : s < g.vertices.length) (hx : x ≠ s) (hxn : x < g.len)
    (hxl : x < g.vertices.length) :
    colorAt (startState g s) x = WHITE := by
  unfold colorAt
  rw [startState_vertexAt g s x hsl, if_neg hx, if_pos ⟨hxn, hxl⟩]
  rfl

theorem startState_neighborsOf (g : Graph) (s : Nat) (hsl : s < g.vertices.length) :
    ∀ x, neighborsOf (startState g s).g.vertices x = neighborsOf g.vertices x := by
  intro x
  unfold neighborsOf
  have h : (startState g s).g.vertices.getD x default = (startState g s).vertexAt x := rfl
  rw [h, startState_vertexAt g s x hsl]
  by_cases hx : x = s
  · rw [if_pos hx]
    subst hx
    by_cases hsn : x < g.len
    · rw [if_pos hsn]; rfl
    · rw [if_neg hsn]; rfl
  · rw [if_neg hx]
    by_cases hc : x < g.len ∧ x < g.vertices.length
    · rw [if_pos hc]; rfl
    · rw [if_neg hc]; rfl

theorem startState_data (g : Graph) (s : Nat) (hsl : s < g.vertices.length) (x : Nat) :
    ((startState g s).vertexAt x).data = (g.vertexAt x).data := by
  rw [startState_vertexAt g s x hsl]
  by_cases hx : x = s
  · rw [if_pos hx]
    subst hx
    by_cases hsn : x < g.len
    · rw [if_pos hsn]; rfl
    · rw [if_neg hsn]
  · rw [if_neg hx]
    by_cases hc : x < g.len ∧ x < g.vertices.length
    · rw [if_pos hc]; rfl
    · rw [if_neg hc]

theorem startState_finish (g : Graph) (s : Nat) (hsl : s < g.vertices.length)
    (hsn : s < g.len) (x : Nat) (hxn : x < g.len) :
    ((startState g s).vertexAt x).finish_time = 0 := by
  rw [startState_vertexAt g s x hsl]
  by_cases hx : x = s
  · rw [if_pos hx, if_pos hsn]; rfl
  · rw [if_neg hx]
    by_cases hxl : x < g.vertices.length
    · rw [if_pos ⟨hxn, hxl⟩]; rfl
    · rw [if_neg (by omega)]
      show (g.vertices.getD x default).finish_time = 0
      rw [List.getD_eq_default _ _ (by omega)]
      rfl

theorem startState_wf (g : Graph) (s : Nat) (hwf : WFGraph g)
    (hsl : s < g.vertices.length) : WFState g.len (startState g s) := by
  refine ⟨?_, fun i hi e he => ?_⟩
  · rw [startState_length]
    rw [hwf.1]
    exact hwf.2.1
  · rw [startState_neighborsOf g s hsl] at he
    exact hwf.2.2 i hi e he

theorem startState_wc (g : Graph) (s : Nat) :
    whiteCount g.len (startState g s) ≤ g.len := by
  unfold whiteCount
  calc (List.range g.len).countP _ ≤ (List.range g.len).length := List.countP_le_length _
  _ = g.len := List.length_range g.len

/-! ### The state after `dfs_topol`'s traversal -/

theorem dfs_topol_run_some (g : Graph) (start : Int) (s : Nat)
    (hs : Graph_GetVertexByKey g start = some s) :
    dfs_topol_run g start = dfs_topol_traverse (g.len + 1) (startState g s) s := by
  have h2 : Graph_GetVertexByKey (resetState g).g start = some s :=
    (getKey_reset g start).trans hs
  unfold dfs_topol_run
  rw [h2]

theorem run_visitOut (g : Graph) (start : Int) (s : Nat) (hwf : WFGraph g)
    (hs : Graph_GetVertexByKey g start = some s) :
    VisitOut g.len (startState g s) s (dfs_topol_run g start) := by
  have hsn : s < g.len := (getVertexByKey_some g start s hs).1
  have hsl : s < g.vertices.length := by
    rw [hwf.1]
    exact lt_of_lt_of_le hsn hwf.2.1
  rw [dfs_topol_run_some g start s hs]
  exact visit_spec (g.len + 1) g.len (startState g s) s (startState_wf g s hwf hsl) hsn
    (startState_color_s g s hsl)
    (lt_of_le_of_lt (startState_wc g s) (Nat.lt_succ_self g.len))


theorem getVertexByKey_some_len (g : Graph) (key : Int) (i : Nat)
    (h : Graph_GetVertexByKey g key = some i) : i < g.vertices.length := by
  have h1 := (scanKey_some_spec (g.vertices.take g.len) key i h).1
  rw [List.length_take] at h1
  exact lt_of_lt_of_le h1 (min_le_right _ _)

/-! ### Consequences for the complete `dfs_topol` run -/

theorem run_reach_black (g : Graph) (start : Int) (s : Nat) (hwf : WFGraph g)
    (hs : Graph_GetVertexByKey g start = some s) :
    ∀ x, Reach g.vertices s x →
      x < g.len ∧ colorAt (dfs_topol_run g start) x = BLACK := by
  have hsn : s < g.len := (getVertexByKey_some g start s hs).1
  have hsl : s < g.vertices.length := by
    rw [hwf.1]; exact lt_of_lt_of_le hsn hwf.2.1
  have hOut := run_visitOut g start s hwf hs
  have hnb : ∀ y, neighborsOf (startState g s).g.vertices y = neighborsOf g.vertices y :=
    startState_neighborsOf g s hsl
  have hnbOut : ∀ y,
      neighborsOf (dfs_topol_run g start).g.vertices y = neighborsOf g.vertices y := by
    intro y
    rw [frameEq_neighborsOf hOut.feq y]
    exact hnb y
  have hnotgray : ∀ x, x < g.len → colorAt (dfs_topol_run g start) x ≠ GRAY := by
    intro x hx hg
    obtain ⟨hg1, hxs⟩ := hOut.gray_sub x hg
    have hxl : x < g.vertices.length := by
      rw [hwf.1]; exact lt_of_lt_of_le hx hwf.2.1
    rw [startState_color_other g s x hsl hxs hx hxl] at hg1
    exact absurd hg1 (by decide)
  have hcStart : ClosedBlack g.len (startState g s) := by
    intro x hx hb
    by_cases hxs : x = s
    · rw [hxs, startState_color_s g s hsl] at hb
      exact absurd hb (by decide)
    · have hxl : x < g.vertices.length := by
        rw [hwf.1]; exact lt_of_lt_of_le hx hwf.2.1
      rw [startState_color_other g s x hsl hxs hx hxl] at hb
      exact absurd hb (by decide)
  have hcOut := hOut.closed hcStart
  intro x hr
  induction hr with
  | refl => exact ⟨hsn, hOut.black_v⟩
  | tail hru hadj ih =>
    obtain ⟨hun, hub⟩ := ih
    obtain ⟨e, he, hew⟩ := hadj
    have hwn : _ := (hwf.2.2 _ hun e he).2
    rw [hew] at hwn
    have hnw := hcOut _ hun hub e (by rw [hnbOut]; exact he)
    rw [hew] at hnw
    refine ⟨hwn, ?_⟩
    cases hc : colorAt (dfs_topol_run g start) _ with
    | WHITE => exact absurd hc hnw
    | GRAY => exact absurd hc (hnotgray _ hwn)
    | BLACK => rfl

theorem run_black_reach (g : Graph) (start : Int) (s : Nat) (hwf : WFGraph g)
    (hs : Graph_GetVertexByKey g start = some s) :
    ∀ x, x < g.len → colorAt (dfs_topol_run g start) x = BLACK →
      Reach g.vertices s x := by
  have hsn : s < g.len := (getVertexByKey_some g start s hs).1
  have hsl : s < g.vertices.length := by
    rw [hwf.1]; exact lt_of_lt_of_le hsn hwf.2.1
  have hOut := run_visitOut g start s hwf hs
  intro x hx hb
  rcases hOut.reach_new x hb with hb1 | hr
  · exfalso
    by_cases hxs : x = s
    · rw [hxs, startState_color_s g s hsl] at hb1
      exact absurd hb1 (by decide)
    · have hxl : x < g.vertices.length := by
        rw [hwf.1]; exact lt_of_lt_of_le hx hwf.2.1
      rw [startState_color_other g s x hsl hxs hx hxl] at hb1
      exact absurd hb1 (by decide)
  · exact Reach_congr (fun y => startState_neighborsOf g s hsl y) hr

theorem run_unreached_white (g : Graph) (start : Int) (s : Nat) (hwf : WFGraph g)
    (hs : Graph_GetVertexByKey g start = some s) :
    ∀ x, x < g.len → ¬ Reach g.vertices s x →
      colorAt (dfs_topol_run g start) x = WHITE := by
  have hsn : s < g.len := (getVertexByKey_some g start s hs).1
  have hsl : s < g.vertices.length := by
    rw [hwf.1]; exact lt_of_lt_of_le hsn hwf.2.1
  have hOut := run_visitOut g start s hwf hs
  intro x hx hr
  cases hc : colorAt (dfs_topol_run g start) x with
  | WHITE => rfl
  | GRAY =>
    exfalso
    obtain ⟨hg1, hxs⟩ := hOut.gray_sub x hc
    have hxl : x < g.vertices.length := by
      rw [hwf.1]; exact lt_of_lt_of_le hx hwf.2.1
    rw [startState_color_other g s x hsl hxs hx hxl] at hg1
    exact absurd hg1 (by decide)
  | BLACK => exact absurd (run_black_reach g start s hwf hs x hx hc) hr

theorem run_queue_spec (g : Graph) (start : Int) (s : Nat) (hwf : WFGraph g)
    (hs : Graph_GetVertexByKey g start = some s) :
    ∃ rl : List Nat, rl.Nodup ∧
      (∀ x, x ∈ rl ↔ (x < g.len ∧ Reach g.vertices s x)) ∧
      (dfs_topol_run g start).listado.items.Perm
        (rl.map (fun x => (g.vertexAt x).data)) ∧
      (dfs_topol_run g start).listado.items.getLast? = some ((g.vertexAt s).data) := by
  have hsn : s < g.len := (getVertexByKey_some g start s hs).1
  have hsl : s < g.vertices.length := by
    rw [hwf.1]; exact lt_of_lt_of_le hsn hwf.2.1
  have hOut := run_visitOut g start s hwf hs
  obtain ⟨l, hitems, hperm⟩ := hOut.queue
  have hstitems : (startState g s).listado.items = [] := rfl
  rw [hstitems, List.nil_append] at hitems
  have hdmap : (fun x => ((startState g s).vertexAt x).data) =
      (fun x => (g.vertexAt x).data) :=
    funext (fun x => startState_data g s hsl x)
  rw [hdmap] at hperm
  have hds : ((startState g s).vertexAt s).data = (g.vertexAt s).data :=
    startState_data g s hsl s
  rw [hds] at hitems hperm
  refine ⟨newlyBlack g.len (startState g s) (dfs_topol_run g start),
    List.Nodup.filter _ (List.nodup_range _), fun x => ?_, ?_, ?_⟩
  · unfold newlyBlack
    rw [List.mem_filter, List.mem_range]
    constructor
    · rintro ⟨hx, hp⟩
      have hp' := of_decide_eq_true hp
      exact ⟨hx, run_black_reach g start s hwf hs x hx hp'.1⟩
    · rintro ⟨hx, hr⟩
      refine ⟨hx, decide_eq_true ⟨(run_reach_black g start s hwf hs x hr).2, ?_⟩⟩
      by_cases hxs : x = s
      · rw [hxs, startState_color_s g s hsl]
        decide
      · have hxl : x < g.vertices.length := by
          rw [hwf.1]; exact lt_of_lt_of_le hx hwf.2.1
        rw [startState_color_other g s x hsl hxs hx hxl]
        decide
  · rw [hitems]
    exact hperm
  · rw [hitems]
    exact List.getLast?_concat _

theorem run_finish_zero (g : Graph) (start : Int) :
    ∀ x, x < g.len → ((dfs_topol_run g start).vertexAt x).finish_time = 0 := by
  intro x hx
  unfold dfs_topol_run
  cases h : Graph_GetVertexByKey (resetState g).g start with
  | none =>
    rw [resetState_vertexAt]
    by_cases hxl : x < g.vertices.length
    · rw [if_pos ⟨hx, hxl⟩]; rfl
    · rw [if_neg (by omega)]
      show (g.vertices.getD x default).finish_time = 0
      rw [List.getD_eq_default _ _ (by omega)]
      rfl
  | some s =>
    have hsn : s < g.len := (getVertexByKey_some (resetState g).g start s h).1
    have hsl : s < g.vertices.length := by
      have := getVertexByKey_some_len (resetState g).g start s h
      rwa [resetState_length] at this
    have hfr := frameEq_finish (traverse_frame (g.len + 1) (startState g s) s) x
    rw [hfr]
    exact startState_finish g s hsl hsn x hx

theorem run_cap (g : Graph) (start : Int) :
    (dfs_topol_run g start).listado.cap = MAX_VERTICES := by
  unfold dfs_topol_run
  cases h : Graph_GetVertexByKey (resetState g).g start with
  | none => rfl
  | some s =>
    have hc := (traverse_frame (g.len + 1) (startState g s) s).2.2.2.2.1
    rw [hc]
    rfl

theorem run_disc_start (g : Graph) (start : Int) (s : Nat) (hwf : WFGraph g)
    (hs : Graph_GetVertexByKey g start = some s) :
    ((dfs_topol_run g start).vertexAt s).discovery_time =
      (dfs_topol_run g start).tiempo :=
  (run_visitOut g start s hwf hs).disc_v

theorem run_traverse_no_finish_write (fuel : Nat) (st : DfsState) (v x : Nat) :
    ((dfs_topol_traverse fuel st v).vertexAt x).finish_time =
      (st.vertexAt x).finish_time :=
  frameEq_finish (traverse_frame fuel st v) x


/-! ### Adjacency-list insertion lemmas -/

theorem List_Find_mem_iff (l : List AdjEntry) (i : Int) :
    List_Find l i = true ↔ i ∈ l.map AdjEntry.index := by
  unfold List_Find
  rw [List.any_eq_true]
  constructor
  · rintro ⟨e, he, hb⟩
    exact List.mem_map.mpr ⟨e, he, beq_iff_eq.mp hb⟩
  · intro h
    obtain ⟨e, he, hei⟩ := List.mem_map.mp h
    exact ⟨e, he, beq_iff_eq.mpr hei⟩

theorem insert_noop (v : Vertex) (i : Int) (w : Float)
    (h : find_neighbor v i = true) : insert v i w = v := by
  cases hn : v.neighbors with
  | none =>
    unfold find_neighbor at h
    rw [hn] at h
    cases h
  | some l =>
    have hf : find_neighbor v i = true := h
    unfold insert
    rw [hn]
    simp only [h, Bool.not_true, Bool.false_eq_true, if_false]

theorem insert_append (v : Vertex) (i : Int) (w : Float)
    (h : find_neighbor v i = false) :
    (insert v i w).neighbors = some ((v.neighbors.getD []) ++ [⟨i, w⟩]) := by
  cases hn : v.neighbors with
  | none =>
    have hf : find_neighbor { v with neighbors := some [] } i = false := by
      unfold find_neighbor List_Find
      simp
    unfold insert
    rw [hn]
    simp only [hf, Bool.not_false, if_true, hn]
    rfl
  | some l =>
    have hf : find_neighbor v i = false := h
    unfold insert
    rw [hn]
    simp only [hf, Bool.not_false, if_true, hn]

theorem insert_indices (v : Vertex) (i : Int) (w : Float) :
    ((insert v i w).neighbors.getD []).map AdjEntry.index =
      (if i ∈ ((v.neighbors.getD []).map AdjEntry.index)
       then (v.neighbors.getD []).map AdjEntry.index
       else ((v.neighbors.getD []).map AdjEntry.index) ++ [i]) := by
  have hfn : find_neighbor v i = List_Find (v.neighbors.getD []) i := by
    unfold find_neighbor
    cases hn : v.neighbors with
    | none => simp [List_Find]
    | some l => rfl
  by_cases hmem : i ∈ ((v.neighbors.getD []).map AdjEntry.index)
  · rw [if_pos hmem]
    have hf : find_neighbor v i = true := by
      rw [hfn]
      exact (List_Find_mem_iff _ i).mpr hmem
    rw [insert_noop v i w hf]
  · rw [if_neg hmem]
    have hf : find_neighbor v i = false := by
      rw [hfn]
      cases hb : List_Find (v.neighbors.getD []) i with
      | false => rfl
      | true => exact absurd ((List_Find_mem_iff _ i).mp hb) hmem
    have := insert_append v i w hf
    rw [show ((insert v i w).neighbors.getD []) =
        (v.neighbors.getD []) ++ [⟨i, w⟩] from by rw [this]; rfl]
    simp

theorem foldl_insert_indices : ∀ (calls : List (Int × Float)) (v : Vertex),
    ((calls.foldl (fun v c => insert v c.1 c.2) v).neighbors.getD []).map
      AdjEntry.index =
    calls.foldl (fun acc c => if c.1 ∈ acc then acc else acc ++ [c.1])
      ((v.neighbors.getD []).map AdjEntry.index) := by
  intro calls
  induction calls with
  | nil => intro v; rfl
  | cons c rest ih =>
    intro v
    rw [List.foldl_cons, List.foldl_cons, ih (insert v c.1 c.2), insert_indices]

theorem specFold_nodup : ∀ (calls : List (Int × Float)) (acc : List Int),
    acc.Nodup →
    (calls.foldl (fun acc c => if c.1 ∈ acc then acc else acc ++ [c.1]) acc).Nodup := by
  intro calls
  induction calls with
  | nil => intro acc h; exact h
  | cons c rest ih =>
    intro acc h
    rw [List.foldl_cons]
    refine ih _ ?_
    by_cases hm : c.1 ∈ acc
    · rw [if_pos hm]; exact h
    · rw [if_neg hm]
      rw [← List.concat_eq_append]
      exact List.Nodup.concat hm h

/-! ### `find` lemmas -/

theorem find_eq_neg_one_of (vertices : List Vertex) (size : Nat) (key : Int)
    (h : ∀ i, i < size → (vertices.getD i default).data ≠ key) :
    find vertices size key = -1 := by
  unfold find
  have : scanKey (vertices.take size) key = none := by
    refine (scanKey_none_spec _ key).mpr (fun j hj => ?_)
    rw [List.length_take] at hj
    have hjs : j < size := lt_of_lt_of_le hj (min_le_left _ _)
    rw [getD_take _ _ _ hjs]
    exact h j hjs
  rw [this]

theorem find_found_ne_neg_one (vertices : List Vertex) (size : Nat) (key : Int)
    (j : Nat) (hjs : j < size) (hjl : j < vertices.length)
    (hd : (vertices.getD j default).data = key) :
    find vertices size key ≠ -1 := by
  have hjt : j < (vertices.take size).length := by
    rw [List.length_take]; omega
  have hdt : ((vertices.take size).getD j default).data = key := by
    rw [getD_take _ _ _ hjs]; exact hd
  obtain ⟨i, hi, hij⟩ := scanKey_found (vertices.take size) key j hjt hdt
  unfold find
  rw [hi]
  show (i : Int) ≠ -1
  omega

theorem find_eq_nat_scanKey (vertices : List Vertex) (size : Nat) (key : Int)
    (i : Nat) (h : find vertices size key = (i : Int)) :
    scanKey (vertices.take size) key = some i := by
  unfold find at h
  cases hc : scanKey (vertices.take size) key with
  | none =>
    rw [hc] at h
    have h2 : (-1 : Int) = (i : Int) := h
    omega
  | some j =>
    rw [hc] at h
    have h2 : (j : Int) = (i : Int) := h
    have : j = i := by omega
    rw [this]


/-! ## The claims -/

/-- C1 (counterexample): in the demonstration graph, after `traverse(g, 100)`
the predecessor of the vertex with key 900 is NOT 800 — DFS reaches 900 first
through 600 → 700 and the predecessor is written once, at discovery. -/
theorem C1_pred900_counterexample :
    ¬ (predOfKey (dfs_topol_run demoGraph 100) 900 = some 800) := by decide

/-- C1 (amended): for the demonstration graph, after `traverse(g, 100)` the
predecessor field (which stores the discovering vertex's key) of the vertex
with key 400 is 100, of 600 and 800 is 400, of 700 is 600, and of 900 is 700
(not 800: 900 is discovered from 700, and 800's later scan finds it BLACK). -/
theorem C1_demo_predecessors_amended :
    predOfKey (dfs_topol_run demoGraph 100) 400 = some 100 ∧
    predOfKey (dfs_topol_run demoGraph 100) 600 = some 400 ∧
    predOfKey (dfs_topol_run demoGraph 100) 800 = some 400 ∧
    predOfKey (dfs_topol_run demoGraph 100) 700 = some 600 ∧
    predOfKey (dfs_topol_run demoGraph 100) 900 = some 700 := by decide

/-- C2 (code bug): on the demonstration graph the traversal enqueues 6 keys,
but the report loop `for(i = 0; i < Queue_Len(lista); ++i)` re-reads the
shrinking queue length each iteration and prints only 3 lines — not one line
per visited vertex as the specification states.  (The lines it does print
are in FIFO order with 0-based indices, keys, and predecessor keys.) -/
theorem C2_drain_half_bug :
    (dfs_topol_run demoGraph 100).listado.items.length = 6 ∧
    (dfs_topol demoGraph 100).2 =
      [(0, 900, 700), (1, 700, 600), (2, 600, 400)] := by decide

/-- C3: for every well-formed graph with pairwise-distinct populated keys and
every start key naming a populated vertex (slot `s`), after the recursive
visit the output queue contains the key of every vertex reachable from the
start exactly once (it is duplicate-free and its members are exactly the keys
of reachable vertices), and the start vertex's key — the last vertex to
finish — is the final enqueue. -/
theorem C3_queue_completeness (g : Graph) (start : Int) (s : Nat)
    (hwf : WFGraph g)
    (hkeys : ∀ i, i < g.len → ∀ j, j < g.len →
      (g.vertexAt i).data = (g.vertexAt j).data → i = j)
    (hs : Graph_GetVertexByKey g start = some s) :
    (dfs_topol_run g start).listado.items.Nodup ∧
    (∀ k, k ∈ (dfs_topol_run g start).listado.items ↔
      ∃ x, x < g.len ∧ Reach g.vertices s x ∧ (g.vertexAt x).data = k) ∧
    (dfs_topol_run g start).listado.items.getLast? = some ((g.vertexAt s).data) := by
  obtain ⟨rl, hnd, hmem, hperm, hlast⟩ := run_queue_spec g start s hwf hs
  have hmapnd : (rl.map (fun x => (g.vertexAt x).data)).Nodup := by
    refine List.Nodup.map_on ?_ hnd
    intro x hx y hy hxy
    exact hkeys x ((hmem x).mp hx).1 y ((hmem y).mp hy).1 hxy
  refine ⟨hperm.nodup_iff.mpr hmapnd, fun k => ?_, hlast⟩
  rw [hperm.mem_iff, List.mem_map]
  constructor
  · rintro ⟨x, hx, hd⟩
    obtain ⟨hxn, hr⟩ := (hmem x).mp hx
    exact ⟨x, hxn, hr, hd⟩
  · rintro ⟨x, hxn, hr, hd⟩
    exact ⟨x, (hmem x).mpr ⟨hxn, hr⟩, hd⟩

/-- Witness for C3 at the demonstration graph and start key 100. -/
theorem C3_queue_completeness_witness :
    (dfs_topol_run demoGraph 100).listado.items.Nodup ∧
    ((900 : Int) ∈ (dfs_topol_run demoGraph 100).listado.items ↔
      ∃ x, x < demoGraph.len ∧ Reach demoGraph.vertices 0 x ∧
        (demoGraph.vertexAt x).data = 900) ∧
    (dfs_topol_run demoGraph 100).listado.items.getLast? =
      some ((demoGraph.vertexAt 0).data) := by
  obtain ⟨h1, h2, h3⟩ :=
    C3_queue_completeness demoGraph 100 0 (by unfold WFGraph; decide) (by decide) (by decide)
  exact ⟨h1, h2 900, h3⟩

/-- C4: for every well-formed graph and start key naming a populated vertex
(slot `s`), after `traverse` completes every populated vertex reachable from
the start has color BLACK and every populated unreachable vertex has color
WHITE. -/
theorem C4_coloring_terminal (g : Graph) (start : Int) (s : Nat)
    (hwf : WFGraph g) (hs : Graph_GetVertexByKey g start = some s) :
    ∀ x, x < Graph_GetLen g →
      (Reach g.vertices s x →
        colorAt (dfs_topol_run g start) x = eGraphColors.BLACK) ∧
      (¬ Reach g.vertices s x →
        colorAt (dfs_topol_run g start) x = eGraphColors.WHITE) :=
  fun x hx =>
    ⟨fun hr => (run_reach_black g start s hwf hs x hr).2,
     fun hr => run_unreached_white g start s hwf hs x hx hr⟩

/-- Witness for C4 at the demonstration graph: vertex slot 3 (key 400). -/
theorem C4_coloring_terminal_witness :
    (Reach demoGraph.vertices 0 3 →
      colorAt (dfs_topol_run demoGraph 100) 3 = eGraphColors.BLACK) ∧
    (¬ Reach demoGraph.vertices 0 3 →
      colorAt (dfs_topol_run demoGraph 100) 3 = eGraphColors.WHITE) :=
  C4_coloring_terminal demoGraph 100 0 (by unfold WFGraph; decide) (by decide) 3 (by decide)

/-- C5 (counterexample): 0 is not the key of any populated vertex of
`zeroKeyGraph` (whose only populated key is 100), yet
`addEdge(g, 0, 100)` returns true and creates an adjacency list on the
unpopulated slot 1 — because `find` scans the full capacity, the zeroed
slot 1 matches key 0. -/
theorem C5_zero_key_counterexample :
    (∀ i, i < zeroKeyGraph.len → (zeroKeyGraph.vertexAt i).data ≠ 0) ∧
    (Graph_AddEdge zeroKeyGraph 0 100).1 = true ∧
    ((Graph_AddEdge zeroKeyGraph 0 100).2.vertexAt 1).neighbors.isSome = true := by
  refine ⟨by decide, by decide, by decide⟩

/-- C5 (amended): `addEdge(g, a, b)` returns false and leaves the graph
completely unchanged whenever `a` or `b` matches the data field of no slot in
the full array `[0, size)` — i.e. is not a populated key and, when
unpopulated (zero-valued) slots exist, is nonzero.  The lookup happens before
any insert, so nothing is mutated on the false-returning path. -/
theorem C5_unknown_key_rejection_amended (g : Graph) (a b : Int)
    (hlen : 0 < g.len)
    (h : (∀ i, i < g.size → (g.vertexAt i).data ≠ a) ∨
         (∀ i, i < g.size → (g.vertexAt i).data ≠ b)) :
    Graph_AddEdge g a b = (false, g) := by
  have hor : find g.vertices g.size a = -1 ∨ find g.vertices g.size b = -1 := by
    rcases h with h | h
    · exact Or.inl (find_eq_neg_one_of _ _ _ h)
    · exact Or.inr (find_eq_neg_one_of _ _ _ h)
  simp only [Graph_AddEdge]
  rw [if_pos hor]

/-- Witness for the amended C5: key 999 matches no slot of `zeroKeyGraph`. -/
theorem C5_unknown_key_rejection_witness :
    Graph_AddEdge zeroKeyGraph 999 100 = (false, zeroKeyGraph) :=
  C5_unknown_key_rejection_amended zeroKeyGraph 999 100 (by decide)
    (Or.inl (by decide))

/-- C6: adjacency-list insertion keeps each distinct neighbor index at most
once: an `insert` whose index is already present is a silent no-op, an
`insert` of an absent index appends the entry at the back, and for every
sequence of insert calls on one fresh vertex (NULL neighbor list, as
`Graph_AddVertex` leaves it) the resulting index sequence is the duplicate-free
first-insertion-order fold of the requested indices. -/
theorem C6_insert_uniqueness :
    (∀ (v : Vertex) (i : Int) (w : Float),
      find_neighbor v i = true → insert v i w = v) ∧
    (∀ (v : Vertex) (i : Int) (w : Float), find_neighbor v i = false →
      (insert v i w).neighbors = some ((v.neighbors.getD []) ++ [⟨i, w⟩])) ∧
    (∀ (calls : List (Int × Float)) (v0 : Vertex), v0.neighbors = none →
      (((calls.foldl (fun v c => insert v c.1 c.2) v0).neighbors.getD []).map
          AdjEntry.index =
        calls.foldl (fun acc c => if c.1 ∈ acc then acc else acc ++ [c.1]) []) ∧
      (((calls.foldl (fun v c => insert v c.1 c.2) v0).neighbors.getD []).map
          AdjEntry.index).Nodup) := by
  refine ⟨insert_noop, insert_append, fun calls v0 h0 => ?_⟩
  have hseed : ((v0.neighbors.getD []).map AdjEntry.index) = [] := by
    rw [h0]; rfl
  have h1 := foldl_insert_indices calls v0
  rw [hseed] at h1
  exact ⟨h1, by rw [h1]; exact specFold_nodup calls [] List.nodup_nil⟩

/-- Witness for C6: a duplicate insert is a no-op, a fresh insert appends,
and a concrete call sequence with a repeated index yields each index once. -/
theorem C6_insert_uniqueness_witness :
    insert { Vertex.zero with neighbors := some [⟨3, 0.0⟩] } 3 0.5 =
      { Vertex.zero with neighbors := some [⟨3, 0.0⟩] } ∧
    (insert Vertex.zero 5 1.5).neighbors =
      some ((Vertex.zero.neighbors.getD []) ++ [⟨5, 1.5⟩]) ∧
    ((([((3 : Int), (0.0 : Float)), (3, 1.0), (5, 0.0)].foldl
        (fun v c => insert v c.1 c.2) Vertex.zero).neighbors.getD []).map
      AdjEntry.index =
      [((3 : Int), (0.0 : Float)), (3, 1.0), (5, 0.0)].foldl
        (fun acc c => if c.1 ∈ acc then acc else acc ++ [c.1]) []) := by
  refine ⟨C6_insert_uniqueness.1 _ 3 0.5 (by decide),
    C6_insert_uniqueness.2.1 Vertex.zero 5 1.5 (by decide),
    (C6_insert_uniqueness.2.2 [((3 : Int), (0.0 : Float)), (3, 1.0), (5, 0.0)]
      Vertex.zero rfl).1⟩

/-- C7: `traverse` first resets every populated vertex to WHITE, predecessor
-1 and both timestamps 0; the recursive traversal never writes the
finish-time field of any vertex, so after `traverse` every populated vertex's
finish time is 0; and the second timestamp is written through the
discovery-time setter, so at the moment a visit returns the visited vertex's
discovery-time field holds the just-taken (finishing) timestamp — in
particular the start vertex's final discovery time equals the final time
counter. -/
theorem C7_reset_and_finish_time (g : Graph) (start : Int) (s : Nat)
    (hwf : WFGraph g) (hs : Graph_GetVertexByKey g start = some s) :
    (∀ x, x < g.len → x < g.vertices.length →
      (resetState g).vertexAt x = resetVertex (g.vertexAt x) ∧
      (resetVertex (g.vertexAt x)).color = eGraphColors.WHITE ∧
      (resetVertex (g.vertexAt x)).predecessor = -1 ∧
      (resetVertex (g.vertexAt x)).discovery_time = 0 ∧
      (resetVertex (g.vertexAt x)).finish_time = 0) ∧
    (∀ (fuel : Nat) (st : DfsState) (v x : Nat),
      ((dfs_topol_traverse fuel st v).vertexAt x).finish_time =
        (st.vertexAt x).finish_time) ∧
    (∀ x, x < g.len → ((dfs_topol_run g start).vertexAt x).finish_time = 0) ∧
    (((dfs_topol_run g start).vertexAt s).discovery_time =
      (dfs_topol_run g start).tiempo) ∧
    (∀ (fuel n : Nat) (st : DfsState) (v : Nat), WFState n st → v < n →
      colorAt st v = eGraphColors.GRAY → whiteCount n st < fuel →
      ((dfs_topol_traverse fuel st v).vertexAt v).discovery_time =
        (dfs_topol_traverse fuel st v).tiempo) := by
  refine ⟨fun x hx hxl => ⟨?_, rfl, rfl, rfl, rfl⟩,
    run_traverse_no_finish_write,
    run_finish_zero g start,
    run_disc_start g start s hwf hs,
    fun fuel n st v h1 h2 h3 h4 => (visit_spec fuel n st v h1 h2 h3 h4).disc_v⟩
  rw [resetState_vertexAt, if_pos ⟨hx, hxl⟩]

/-- Witness for C7 at the demonstration graph. -/
theorem C7_reset_and_finish_time_witness :
    (resetState demoGraph).vertexAt 0 = resetVertex (demoGraph.vertexAt 0) ∧
    ((dfs_topol_traverse 1 (resetState demoGraph) 0).vertexAt 3).finish_time =
      ((resetState demoGraph).vertexAt 3).finish_time ∧
    ((dfs_topol_run demoGraph 100).vertexAt 5).finish_time = 0 ∧
    ((dfs_topol_run demoGraph 100).vertexAt 0).discovery_time =
      (dfs_topol_run demoGraph 100).tiempo ∧
    ((dfs_topol_traverse 10 (startState demoGraph 0) 0).vertexAt 0).discovery_time =
      (dfs_topol_traverse 10 (startState demoGraph 0) 0).tiempo := by
  obtain ⟨h1, h2, h3, h4, h5⟩ :=
    C7_reset_and_finish_time demoGraph 100 0 (by unfold WFGraph; decide) (by decide)
  exact ⟨(h1 0 (by decide) (by decide)).1,
    h2 1 (resetState demoGraph) 0 3,
    h3 5 (by decide),
    h4,
    h5 10 9 (startState demoGraph 0) 0 (by unfold WFState; decide) (by decide) (by decide) (by decide)⟩

/-- C8 (counterexample): `traverse` always creates its queue with the fixed
capacity `MAX_VERTICES` = 9, so for the 10-vertex graph `wideGraph` the queue
capacity is NOT at least `length(graph)`. -/
theorem C8_capacity_counterexample :
    ¬ (Graph_GetLen wideGraph ≤ (dfs_topol_run wideGraph 1).listado.cap) := by
  decide

/-- C8 (amended): `traverse` creates its FIFO recording queue with the fixed
capacity `MAX_VERTICES` = 9 for every graph; this is at least
`length(graph)` exactly when `length(graph) ≤ MAX_VERTICES`, which holds for
the demonstration graph. -/
theorem C8_capacity_amended (g : Graph) (start : Int) :
    (dfs_topol_run g start).listado.cap = MAX_VERTICES ∧
    (Graph_GetLen g ≤ MAX_VERTICES →
      Graph_GetLen g ≤ (dfs_topol_run g start).listado.cap) := by
  refine ⟨run_cap g start, fun h => ?_⟩
  rw [run_cap g start]
  exact h

/-- Witness for the amended C8 at the demonstration graph (9 = 9 vertices). -/
theorem C8_capacity_amended_witness :
    (dfs_topol_run demoGraph 100).listado.cap = MAX_VERTICES ∧
    Graph_GetLen demoGraph ≤ (dfs_topol_run demoGraph 100).listado.cap :=
  ⟨(C8_capacity_amended demoGraph 100).1,
   (C8_capacity_amended demoGraph 100).2 (by decide)⟩

/-- C9 (counterexample): when the self-loop is already present, a second
`addEdge(g, k, k)` appends NO adjacency entry (it is a duplicate no-op), so
the claim that it always appends exactly one entry fails. -/
theorem C9_self_loop_counterexample :
    ¬ ((((Graph_AddEdge (Graph_AddEdge loopGraph 5 5).2 5 5).2.vertexAt
          0).neighbors.getD []).length =
        (((Graph_AddEdge loopGraph 5 5).2.vertexAt 0).neighbors.getD []).length
          + 1) := by
  decide

/-- C9 (amended): for every graph (UNDIRECTED or DIRECTED) in which key `k`
resolves to slot `i` and `i`'s adjacency list does not yet contain the
self-loop entry, `addEdge(g, k, k)` returns true and appends exactly one
entry `(i, 0.0)` to `i`'s adjacency list — for UNDIRECTED graphs the
symmetric insert targets the same vertex with the same index and is
suppressed as a duplicate. -/
theorem C9_self_loop_amended (g : Graph) (k : Int) (i : Nat)
    (hlen : g.vertices.length = g.size)
    (hfind : find g.vertices g.size k = (i : Int))
    (hfresh : find_neighbor (g.vertexAt i) (i : Int) = false) :
    (Graph_AddEdge g k k).1 = true ∧
    (((Graph_AddEdge g k k).2.vertexAt i).neighbors.getD []) =
      ((g.vertexAt i).neighbors.getD []) ++ [⟨(i : Int), 0.0⟩] := by
  have hscan := find_eq_nat_scanKey g.vertices g.size k i hfind
  have hil : i < g.vertices.length := by
    have h1 := (scanKey_some_spec _ k i hscan).1
    rw [List.length_take] at h1
    exact lt_of_lt_of_le h1 (min_le_right _ _)
  have hne : ¬(find g.vertices g.size k = -1 ∨ find g.vertices g.size k = -1) := by
    rw [hfind]
    intro hc
    rcases hc with hc | hc <;> omega
  have happ := insert_append (g.vertices.getD i default) (i : Int) 0.0 hfresh
  simp only [Graph_AddEdge]
  rw [hfind, if_neg (by rw [hfind] at hne; exact hne)]
  simp only [Int.toNat_ofNat]
  refine ⟨?_, ?_⟩
  · trivial
  · have hv1 : ∀ (gv : List Vertex), gv = g.vertices →
        ((gv.set i (insert (gv.getD i default) (i : Int) 0.0)).getD i default) =
          insert (g.vertices.getD i default) (i : Int) 0.0 := by
      intro gv hgv
      subst hgv
      rw [getD_set, if_pos ⟨rfl, hil⟩]
    cases hty : g.type with
    | UNDIRECTED =>
      rw [if_pos rfl]
      show (((g.vertices.set i (insert (g.vertices.getD i default) (i : Int) 0.0)).set i
          (insert ((g.vertices.set i
            (insert (g.vertices.getD i default) (i : Int) 0.0)).getD i default)
            (i : Int) 0.0)).getD i default).neighbors.getD [] = _
      rw [getD_set, if_pos ⟨rfl, by rw [List.length_set]; exact hil⟩,
        hv1 g.vertices rfl]
      have hmem2 : find_neighbor (insert (g.vertices.getD i default) (i : Int) 0.0)
          (i : Int) = true := by
        unfold find_neighbor
        rw [happ]
        refine (List_Find_mem_iff _ _).mpr ?_
        rw [List.map_append]
        exact List.mem_append.mpr (Or.inr (by simp))
      rw [insert_noop _ _ _ hmem2, happ]
      rfl
    | DIRECTED =>
      rw [if_neg (by intro hc; cases hc)]
      show ((g.vertices.set i (insert (g.vertices.getD i default) (i : Int) 0.0)).getD
          i default).neighbors.getD [] = _
      rw [hv1 g.vertices rfl, happ]
      rfl

/-- Witness for the amended C9: a fresh self-loop on the UNDIRECTED
`loopGraph` appends exactly one entry. -/
theorem C9_self_loop_amended_witness :
    (Graph_AddEdge loopGraph 5 5).1 = true ∧
    (((Graph_AddEdge loopGraph 5 5).2.vertexAt 0).neighbors.getD []) =
      ((loopGraph.vertexAt 0).neighbors.getD []) ++ [⟨(0 : Int), 0.0⟩] :=
  C9_self_loop_amended loopGraph 5 0 (by decide) (by decide) (by decide)

/-- C10: `getVertexByKey` scans only the populated range `[0, len)` and
returns NULL (`none`) for a key no populated vertex holds — even when that
key equals the 0 stored in unpopulated slots — while `addEdge`'s key
resolution `find` scans the full capacity, so a key matching an unpopulated
slot does resolve; and when several slots share a key, `getVertexByKey`
returns the lowest matching populated index. -/
theorem C10_lookup_semantics :
    (∀ (g : Graph) (key : Int),
      (∀ i, i < g.len → (g.vertexAt i).data ≠ key) →
      Graph_GetVertexByKey g key = none) ∧
    (∀ (g : Graph) (key : Int) (j : Nat), Graph_GetLen g ≤ j → j < g.size →
      j < g.vertices.length → (g.vertexAt j).data = key →
      find g.vertices g.size key ≠ -1) ∧
    (∀ (g : Graph) (key : Int) (i : Nat), Graph_GetVertexByKey g key = some i →
      i < g.len ∧ (g.vertexAt i).data = key ∧
        ∀ j, j < i → (g.vertexAt j).data ≠ key) :=
  ⟨fun g key h => getVertexByKey_none_of g key h,
   fun g key j hlen hjs hjl hd => find_found_ne_neg_one g.vertices g.size key j hjs hjl hd,
   fun g key i h => getVertexByKey_some g key i h⟩

/-- Witness for C10: on `sparseGraph` the key 0 (held only by an unpopulated
slot) is invisible to `getVertexByKey` but found by `find`; on `dupKeyGraph`
the duplicated key 5 resolves to the lowest index 1. -/
theorem C10_lookup_semantics_witness :
    Graph_GetVertexByKey sparseGraph 0 = none ∧
    find sparseGraph.vertices sparseGraph.size 0 ≠ -1 ∧
    (1 < dupKeyGraph.len ∧ (dupKeyGraph.vertexAt 1).data = 5 ∧
      ∀ j, j < 1 → (dupKeyGraph.vertexAt j).data ≠ 5) :=
  ⟨C10_lookup_semantics.1 sparseGraph 0 (by decide),
   C10_lookup_semantics.2.1 sparseGraph 0 1 (by decide) (by decide) (by decide)
     (by decide),
   C10_lookup_semantics.2.2 dupKeyGraph 5 1 (by decide)⟩

end GrafosDFS
